import Mathlib

/-!
Verification of the tinyzkp streaming prover/verifier core against its
specification.  The Rust sources are shallowly embedded: each Rust function
that a claim depends on is translated into an executable Lean definition that
mirrors the source control flow.  The BN254 scalar field of the source is
embedded as an arbitrary decidable field `F`; concrete witnesses instantiate
`F` with small prime fields.  Panics in the source (`expect`, `assert`,
out-of-bounds indexing) are modelled as `Option`/`Except` failures where a
claim can reach them.
-/

set_option linter.unusedSectionVars false

namespace Tinyzkp

section FieldDefs

variable {F : Type} [Field F] [DecidableEq F]

/-- Embedding of `stream.rs::pow_usize`: exponentiation by squaring
(`while exp > 0 { if odd then acc *= base; base = base * base; exp >>= 1 }`). -/
def pow_usize_go (acc base : F) (exp : Nat) : F :=
  if exp = 0 then acc
  else pow_usize_go (if exp % 2 = 1 then acc * base else acc) (base * base) (exp / 2)
termination_by exp
decreasing_by exact Nat.div_lt_self (Nat.pos_of_ne_zero (by assumption)) (by omega)

/-- Embedding of `stream.rs::pow_usize` (entry point, `acc = 1`). -/
def pow_usize (base : F) (exp : Nat) : F := pow_usize_go 1 base exp

theorem pow_usize_go_eq (exp : Nat) : ∀ acc base : F, pow_usize_go acc base exp = acc * base ^ exp := by
  induction exp using Nat.strong_induction_on with
  | _ e ih =>
    intro acc base
    by_cases h : e = 0
    · subst h; rw [pow_usize_go]; simp
    · rw [pow_usize_go, if_neg h, ih (e / 2) (Nat.div_lt_self (Nat.pos_of_ne_zero h) (by omega))]
      have hdm : 2 * (e / 2) + e % 2 = e := Nat.div_add_mod e 2
      rcases Nat.mod_two_eq_zero_or_one e with hm | hm
      · have he : e = 2 * (e / 2) := by omega
        rw [hm, if_neg (by omega : ¬ ((0:Nat) = 1))]
        conv_rhs => rw [he]
        rw [pow_mul]
        ring
      · have he : e = 2 * (e / 2) + 1 := by omega
        rw [hm, if_pos rfl]
        conv_rhs => rw [he]
        rw [pow_add, pow_mul]
        ring

theorem pow_usize_eq (base : F) (exp : Nat) : pow_usize base exp = base ^ exp := by
  rw [pow_usize, pow_usize_go_eq, one_mul]

/-- Embedding of `domain.rs::pow_u64` (structurally identical square-and-multiply
loop; the `u64` exponent is embedded as `Nat`). -/
def pow_u64_go (acc base : F) (exp : Nat) : F :=
  if exp = 0 then acc
  else pow_u64_go (if exp % 2 = 1 then acc * base else acc) (base * base) (exp / 2)
termination_by exp
decreasing_by exact Nat.div_lt_self (Nat.pos_of_ne_zero (by assumption)) (by omega)

/-- Embedding of `domain.rs::pow_u64` (entry point). -/
def pow_u64 (base : F) (exp : Nat) : F := pow_u64_go 1 base exp

theorem pow_u64_go_eq (exp : Nat) : ∀ acc base : F, pow_u64_go acc base exp = acc * base ^ exp := by
  induction exp using Nat.strong_induction_on with
  | _ e ih =>
    intro acc base
    by_cases h : e = 0
    · subst h; rw [pow_u64_go]; simp
    · rw [pow_u64_go, if_neg h, ih (e / 2) (Nat.div_lt_self (Nat.pos_of_ne_zero h) (by omega))]
      have hdm : 2 * (e / 2) + e % 2 = e := Nat.div_add_mod e 2
      rcases Nat.mod_two_eq_zero_or_one e with hm | hm
      · have he : e = 2 * (e / 2) := by omega
        rw [hm, if_neg (by omega : ¬ ((0:Nat) = 1))]
        conv_rhs => rw [he]
        rw [pow_mul]
        ring
      · have he : e = 2 * (e / 2) + 1 := by omega
        rw [hm, if_pos rfl]
        conv_rhs => rw [he]
        rw [pow_add, pow_mul]
        ring

theorem pow_u64_eq (base : F) (exp : Nat) : pow_u64 base exp = base ^ exp := by
  rw [pow_u64, pow_u64_go_eq, one_mul]

/-- Direct polynomial evaluation of a low-to-high coefficient list:
`evalPoly [a0, a1, ...] z = a0 + a1*z + a2*z^2 + ...`. -/
def evalPoly (a : List F) (z : F) : F :=
  match a with
  | [] => 0
  | c :: t => c + z * evalPoly t z

theorem evalPoly_nil (z : F) : evalPoly ([] : List F) z = 0 := rfl

theorem evalPoly_cons (c : F) (t : List F) (z : F) :
    evalPoly (c :: t) z = c + z * evalPoly t z := rfl

theorem evalPoly_append (xs ys : List F) (z : F) :
    evalPoly (xs ++ ys) z = evalPoly xs z + z ^ xs.length * evalPoly ys z := by
  induction xs with
  | nil => simp [evalPoly]
  | cons c t ih => simp [evalPoly, ih, pow_succ]; ring

theorem evalPoly_eq_sum (a : List F) (z : F) :
    evalPoly a z = ∑ i ∈ Finset.range a.length, a.getD i 0 * z ^ i := by
  induction a with
  | nil => simp [evalPoly]
  | cons c t ih =>
    rw [evalPoly_cons, ih, List.length_cons, Finset.sum_range_succ']
    simp only [List.getD_cons_succ, List.getD_cons_zero, pow_zero, mul_one, pow_succ]
    rw [Finset.mul_sum, add_comm]
    congr 1
    refine Finset.sum_congr rfl ?_
    intro x _
    ring

end FieldDefs

-- ===========================================================================
-- C7: streaming Horner evaluation (stream.rs::horner_eval_stream)
-- ===========================================================================

section Horner

variable {F : Type} [Field F] [DecidableEq F]

/-- Embedding of the per-tile fold in `horner_eval_stream`: the source walks
the tile in reverse (`tile.iter().rev()`) computing `local = local * z + ai`. -/
def hornerLocal (tile : List F) (z : F) : F :=
  tile.reverse.foldl (fun acc ai => acc * z + ai) 0

/-- Embedding of `stream.rs::horner_eval_stream` over a tile stream, modelled
as a list of tiles: `acc += pow * local; pow *= pow_usize z tile.len()`. -/
def horner_eval_stream (tiles : List (List F)) (z : F) : F :=
  (tiles.foldl (fun s tile =>
      (s.1 + s.2 * hornerLocal tile z, s.2 * pow_usize z tile.length)) ((0 : F), (1 : F))).1

theorem hornerLocal_eq (tile : List F) (z : F) : hornerLocal tile z = evalPoly tile z := by
  rw [hornerLocal, List.foldl_reverse]
  induction tile with
  | nil => simp [evalPoly]
  | cons c t ih => simp [evalPoly, ih]; ring

theorem horner_fold_acc (tiles : List (List F)) (z : F) :
    ∀ acc pow : F,
      (tiles.foldl (fun s tile =>
          (s.1 + s.2 * hornerLocal tile z, s.2 * pow_usize z tile.length)) (acc, pow)).1 =
        acc + pow * evalPoly tiles.flatten z := by
  induction tiles with
  | nil => intro acc pow; simp [evalPoly]
  | cons t ts ih =>
    intro acc pow
    simp only [List.foldl_cons, List.flatten_cons]
    rw [ih, evalPoly_append, hornerLocal_eq, pow_usize_eq]
    ring

end Horner

-- ===========================================================================
-- C5: PCS aggregator and commit_stream tile-order invariance (pcs.rs)
-- ===========================================================================

section Pcs

variable {F : Type} [Field F] [DecidableEq F]
variable {G : Type} [AddCommGroup G] [Module F G]

/-- Embedding of `pcs.rs::Basis`. -/
inductive Basis
  | Evaluation
  | Coefficient
deriving DecidableEq

/-- Embedding of `pcs.rs::PcsParams` (the SRS placeholder field is dropped;
the SRS itself is modelled as a function `Nat → G` giving the power
`[tau^i]G1`, with `G` an arbitrary module over the scalar field). -/
structure PcsParams where
  max_degree : Nat
  basis : Basis
deriving DecidableEq

/-- Embedding of `pcs.rs::AggregatorError`. -/
inductive AggregatorError
  | DegreeOverflow (cursor adding limit : Nat)
  | BasisMismatch (expected got : Basis)
deriving DecidableEq

/-- Aggregator state: the running projective accumulator and the cursor
(next absolute coefficient index), as in `pcs.rs::Aggregator`. -/
structure AggState (G : Type) where
  acc : G
  cursor : Nat

/-- Embedding of the MSM inner loop shared by
`Aggregator::add_block_coeffs_checked` and `commit_stream`: for each
coefficient `c` at offset `i` (skipping zeros), add `c • srs (base + i)`. -/
def msmAddTile (srs : Nat → G) (base : Nat) (acc : G) (coeffs : List F) : G :=
  match coeffs with
  | [] => acc
  | c :: t => msmAddTile srs (base + 1) (if c = 0 then acc else acc + c • srs base) t

/-- Embedding of `pcs.rs::Aggregator::add_block_coeffs_checked`: fails when the
tile would push the cursor past `max_degree + 1`, otherwise accumulates the
MSM contribution and advances the cursor. -/
def add_block_coeffs_checked (pcs : PcsParams) (srs : Nat → G) (s : AggState G)
    (coeffs : List F) : Except AggregatorError (AggState G) :=
  if s.cursor + coeffs.length > pcs.max_degree + 1 then
    .error (.DegreeOverflow s.cursor coeffs.length (pcs.max_degree + 1))
  else
    .ok ⟨msmAddTile srs s.cursor s.acc coeffs, s.cursor + coeffs.length⟩

/-- Feeding a sequence of low-to-high tiles to the aggregator in order
(each through `add_block_coeffs_checked`), propagating the first error. -/
def feedTilesChecked (pcs : PcsParams) (srs : Nat → G) :
    AggState G → List (List F) → Except AggregatorError (AggState G)
  | s, [] => .ok s
  | s, t :: ts =>
      match add_block_coeffs_checked pcs srs s t with
      | .error e => .error e
      | .ok s2 => feedTilesChecked pcs srs s2 ts

/-- Embedding of `pcs.rs::commit_stream`: same MSM loop over a generic tile
stream, starting from the zero accumulator and cursor 0; the returned
commitment is the final accumulator. -/
def commit_stream (srs : Nat → G) (tiles : List (List F)) : G :=
  (tiles.foldl (fun s tile => (msmAddTile srs s.2 s.1 tile, s.2 + tile.length))
    ((0 : G), (0 : Nat))).1

theorem msmAddTile_eq (srs : Nat → G) :
    ∀ (coeffs : List F) (base : Nat) (acc : G),
      msmAddTile srs base acc coeffs =
        acc + ∑ i ∈ Finset.range coeffs.length, coeffs.getD i 0 • srs (base + i) := by
  intro coeffs
  induction coeffs with
  | nil => intro base acc; simp [msmAddTile]
  | cons c t ih =>
    intro base acc
    rw [msmAddTile, ih, List.length_cons, Finset.sum_range_succ']
    simp only [List.getD_cons_succ, List.getD_cons_zero, Nat.add_zero]
    have hidx : ∀ i : Nat, base + 1 + i = base + (i + 1) := by omega
    simp only [hidx]
    by_cases hc : c = 0
    · simp [hc]
    · simp only [if_neg hc]
      abel

theorem msmAddTile_append (srs : Nat → G) :
    ∀ (xs ys : List F) (base : Nat) (acc : G),
      msmAddTile srs base acc (xs ++ ys) =
        msmAddTile srs (base + xs.length) (msmAddTile srs base acc xs) ys := by
  intro xs
  induction xs with
  | nil => intro ys base acc; simp [msmAddTile]
  | cons c t ih =>
    intro ys base acc
    simp only [List.cons_append, msmAddTile, List.length_cons, List.append_eq]
    rw [ih]
    congr 1
    omega

theorem feedTilesChecked_ok (pcs : PcsParams) (srs : Nat → G) :
    ∀ (tiles : List (List F)) (s : AggState G),
      s.cursor + tiles.flatten.length ≤ pcs.max_degree + 1 →
      feedTilesChecked pcs srs s tiles =
        .ok ⟨msmAddTile srs s.cursor s.acc tiles.flatten,
             s.cursor + tiles.flatten.length⟩ := by
  intro tiles
  induction tiles with
  | nil => intro s h; simp [feedTilesChecked, msmAddTile]
  | cons t ts ih =>
    intro s h
    simp only [List.flatten_cons, List.length_append] at h ⊢
    rw [feedTilesChecked, add_block_coeffs_checked, if_neg (by omega)]
    dsimp only
    rw [ih ⟨msmAddTile srs s.cursor s.acc t, s.cursor + t.length⟩
      (by change s.cursor + t.length + ts.flatten.length ≤ pcs.max_degree + 1; omega)]
    dsimp only
    rw [msmAddTile_append]
    congr 2
    omega

theorem commit_stream_fold (srs : Nat → G) :
    ∀ (tiles : List (List F)) (acc : G) (cursor : Nat),
      (tiles.foldl (fun s tile => (msmAddTile srs s.2 s.1 tile, s.2 + tile.length))
        (acc, cursor)).1 = msmAddTile srs cursor acc tiles.flatten := by
  intro tiles
  induction tiles with
  | nil => intro acc cursor; simp [msmAddTile]
  | cons t ts ih =>
    intro acc cursor
    simp only [List.foldl_cons, List.flatten_cons]
    rw [ih, msmAddTile_append]

end Pcs

/-- C5: for every coefficient vector `a` (given as any flattening of
contiguous low-to-high tiles) of length at most `max_degree + 1`, feeding the
tiles in order to the PCS aggregator succeeds and yields the commitment
`∑ i, a_i • [tau^i]G1`, and `commit_stream` over the same tiles yields that
same sum — independent of where the tile boundaries fall. -/
theorem c5_pcs_tile_order_invariance {F : Type} [Field F] [DecidableEq F]
    {G : Type} [AddCommGroup G] [Module F G]
    (pcs : PcsParams) (srs : Nat → G) (tiles : List (List F))
    (h : tiles.flatten.length ≤ pcs.max_degree + 1) :
    feedTilesChecked pcs srs ⟨0, 0⟩ tiles =
        .ok ⟨∑ i ∈ Finset.range tiles.flatten.length, tiles.flatten.getD i 0 • srs i,
             tiles.flatten.length⟩ ∧
    commit_stream srs tiles =
        ∑ i ∈ Finset.range tiles.flatten.length, tiles.flatten.getD i 0 • srs i := by
  constructor
  · rw [feedTilesChecked_ok pcs srs tiles ⟨0, 0⟩ (by simpa using h)]
    rw [msmAddTile_eq]
    simp
  · rw [commit_stream, commit_stream_fold, msmAddTile_eq]
    simp

instance fact_prime_101 : Fact (Nat.Prime 101) := ⟨by norm_num⟩

instance fact_prime_7 : Fact (Nat.Prime 7) := ⟨by norm_num⟩

/-- Witness for C5 at a concrete input: field `ZMod 101`, module `ZMod 101`,
SRS `i ↦ i + 1`, tiles `[[1,2],[3]]`, `max_degree = 5`. -/
theorem c5_pcs_tile_order_invariance_witness :
    ([[(1 : ZMod 101), 2], [3]].flatten.length ≤ (5 : Nat) + 1) ∧
    (feedTilesChecked ⟨5, .Coefficient⟩ (fun i => ((i : ZMod 101) + 1))
          ⟨0, 0⟩ [[(1 : ZMod 101), 2], [3]] =
        .ok ⟨∑ i ∈ Finset.range [[(1 : ZMod 101), 2], [3]].flatten.length,
              [[(1 : ZMod 101), 2], [3]].flatten.getD i 0 • ((i : ZMod 101) + 1),
             [[(1 : ZMod 101), 2], [3]].flatten.length⟩ ∧
      commit_stream (fun i => ((i : ZMod 101) + 1)) [[(1 : ZMod 101), 2], [3]] =
        ∑ i ∈ Finset.range [[(1 : ZMod 101), 2], [3]].flatten.length,
          [[(1 : ZMod 101), 2], [3]].flatten.getD i 0 • ((i : ZMod 101) + 1)) :=
  ⟨by decide,
   c5_pcs_tile_order_invariance ⟨5, .Coefficient⟩ (fun i => ((i : ZMod 101) + 1))
     [[(1 : ZMod 101), 2], [3]] (by decide)⟩

-- ===========================================================================
-- C6: blocked permutation accumulator Z equals the single global pass
-- (perm_lookup.rs::emit_z_column_block_carry / absorb_block_perm)
-- ===========================================================================

section Perm

variable {F : Type} [Field F] [DecidableEq F]

/-- Embedding of `air.rs::Locals`: the row-local tuple consumed by gates and
accumulators. -/
structure Locals (F : Type) where
  w_row : List F
  id_row : List F
  sigma_row : List F
  selectors_row : List F
deriving DecidableEq

/-- Embedding of `perm_lookup.rs::phi_perm_row`: the per-row multiplicand
`prod_j (w_j + beta*id_j + gamma) / prod_j (w_j + beta*sigma_j + gamma)`,
over the zip of the three rows, with `0` when the denominator has no inverse. -/
def phi_perm_row (row : Locals F) (beta gamma : F) : F :=
  let nd := ((row.w_row.zip row.id_row).zip row.sigma_row).foldl
      (fun acc p =>
        (acc.1 * (p.1.1 + beta * p.1.2 + gamma), acc.2 * (p.1.1 + beta * p.2 + gamma)))
      ((1 : F), (1 : F))
  if nd.2 = 0 then 0 else nd.1 * nd.2⁻¹

/-- Embedding of `perm_lookup.rs::emit_z_column_block_carry`: starting from
`start`, emit `z *= phi` after each row and return the emitted column together
with the final carry. -/
def emit_z_column_block_carry (start : F) (locals : List (Locals F)) (beta gamma : F) :
    List F × F :=
  match locals with
  | [] => ([], start)
  | row :: rest =>
      let z2 := start * phi_perm_row row beta gamma
      let p := emit_z_column_block_carry z2 rest beta gamma
      (z2 :: p.1, p.2)

/-- Embedding of `perm_lookup.rs::absorb_block_perm` on the accumulator value:
`acc.z *= phi_perm_row(row)` for each row. -/
def absorb_block_perm (z : F) (locals : List (Locals F)) (beta gamma : F) : F :=
  locals.foldl (fun z row => z * phi_perm_row row beta gamma) z

/-- Blocked emission of `Z`: the carry (final `Z` of each block) seeds the
next block, exactly as the scheduler's Phase C threads
`emit_z_column_block_carry` across blocks. -/
def emitZBlocks (start : F) (blocksL : List (List (Locals F))) (beta gamma : F) :
    List F × F :=
  match blocksL with
  | [] => ([], start)
  | b :: bs =>
      let p := emit_z_column_block_carry start b beta gamma
      let q := emitZBlocks p.2 bs beta gamma
      (p.1 ++ q.1, q.2)

/-- The single global pass of the specification: `Z(0) = 1` and
`Z(i+1) = Z(i) * phi_perm(i)`, emitting `Z(1), ..., Z(T)` in time order. -/
def globalZPass (z : F) (locals : List (Locals F)) (beta gamma : F) : List F :=
  match locals with
  | [] => []
  | row :: rest =>
      (z * phi_perm_row row beta gamma) ::
        globalZPass (z * phi_perm_row row beta gamma) rest beta gamma

theorem emit_z_append (beta gamma : F) :
    ∀ (xs ys : List (Locals F)) (z : F),
      emit_z_column_block_carry z (xs ++ ys) beta gamma =
        ((emit_z_column_block_carry z xs beta gamma).1 ++
           (emit_z_column_block_carry (emit_z_column_block_carry z xs beta gamma).2 ys
             beta gamma).1,
         (emit_z_column_block_carry (emit_z_column_block_carry z xs beta gamma).2 ys
           beta gamma).2) := by
  intro xs
  induction xs with
  | nil => intro ys z; simp [emit_z_column_block_carry]
  | cons r t ih =>
    intro ys z
    simp only [List.cons_append, emit_z_column_block_carry, List.append_eq]
    rw [ih]

theorem emit_z_fst_eq_globalZPass (beta gamma : F) :
    ∀ (locals : List (Locals F)) (z : F),
      (emit_z_column_block_carry z locals beta gamma).1 = globalZPass z locals beta gamma := by
  intro locals
  induction locals with
  | nil => intro z; rfl
  | cons r t ih =>
    intro z
    simp only [emit_z_column_block_carry, globalZPass]
    rw [ih]

theorem emit_z_snd_eq_absorb (beta gamma : F) :
    ∀ (locals : List (Locals F)) (z : F),
      (emit_z_column_block_carry z locals beta gamma).2 =
        absorb_block_perm z locals beta gamma := by
  intro locals
  induction locals with
  | nil => intro z; rfl
  | cons r t ih =>
    intro z
    simp only [emit_z_column_block_carry, absorb_block_perm, List.foldl_cons]
    rw [ih]
    rfl

end Perm

/-- C6: for every block decomposition of the per-row Locals and all challenges
`(beta, gamma)`, emitting the `Z` column block by block with
`emit_z_column_block_carry` (each block seeded by the previous block's carry,
starting from 1) produces the same sequence of `Z` values as the single global
pass `Z(i+1) = Z(i) * phi_perm(i)`, `Z(0) = 1`, and the same final `Z` as the
single-pass accumulator `absorb_block_perm` over all rows. -/
theorem c6_blocked_z_equals_global_pass {F : Type} [Field F] [DecidableEq F]
    (blocksL : List (List (Locals F))) (beta gamma : F) :
    (emitZBlocks 1 blocksL beta gamma).1 = globalZPass 1 blocksL.flatten beta gamma ∧
    (emitZBlocks 1 blocksL beta gamma).2 = absorb_block_perm 1 blocksL.flatten beta gamma := by
  have key : ∀ (bs : List (List (Locals F))) (z : F),
      emitZBlocks z bs beta gamma = emit_z_column_block_carry z bs.flatten beta gamma := by
    intro bs
    induction bs with
    | nil => intro z; rfl
    | cons b t ih =>
      intro z
      simp only [emitZBlocks, List.flatten_cons]
      rw [emit_z_append, ih]
  rw [key, emit_z_fst_eq_globalZPass, emit_z_snd_eq_absorb]
  exact ⟨rfl, rfl⟩

-- ===========================================================================
-- AIR embedding (air.rs): spec, block evaluator, residual streams
-- ===========================================================================

section Air

variable {F : Type} [Field F] [DecidableEq F]

/-- Embedding of `air.rs::AirSpec` (fixed-column model). -/
structure AirSpec (F : Type) where
  k : Nat
  id_table : List (List F)
  sigma_table : List (List F)
  selectors : List (List F)
deriving DecidableEq

/-- Embedding of `air.rs::AirSpec::make_id_sigma_row`.  When either table is
empty the fallback is identity `[0..k-1]` / cyclic shift; otherwise each of
the `k` columns is indexed directly (`none` models the out-of-bounds panic
when a table is shorter than `k`), looking rows up modulo the column length
with per-column defaults for empty columns. -/
def make_id_sigma_row (air : AirSpec F) (row_ctr : Nat) : Option (List F × List F) :=
  if air.id_table = [] ∨ air.sigma_table = [] then
    some ((List.range air.k).map (fun j => (j : F)),
          (List.range air.k).map (fun j => (((j + 1) % air.k : Nat) : F)))
  else do
    let ps ← (List.range air.k).mapM (fun col => do
      let id_col ← air.id_table.get? col
      let sigma_col ← air.sigma_table.get? col
      let id_val := if id_col = [] then (col : F)
        else id_col.getD (row_ctr % id_col.length) 0
      let sigma_val := if sigma_col = [] then (((col + 1) % air.k : Nat) : F)
        else sigma_col.getD (row_ctr % sigma_col.length) 0
      pure (id_val, sigma_val))
    pure (ps.map Prod.fst, ps.map Prod.snd)

/-- Embedding of `air.rs::AirSpec::make_selectors_row`. -/
def make_selectors_row (air : AirSpec F) (row_ctr : Nat) : List F :=
  if air.selectors = [] then []
  else air.selectors.map (fun col => if col = [] then 0 else col.getD (row_ctr % col.length) 0)

/-- Embedding of `air.rs::BlockResult`. -/
structure BlockResult (F : Type) where
  reg_m_vals : List F
  locals : List (Locals F)
  boundary_out : List F
deriving DecidableEq

/-- Row loop of the block evaluator: checks each row length, collects register
`m` values and `Locals`, and threads the boundary (the last row's registers). -/
def evalRows (air : AirSpec F) (m : Nat) : Nat → List F → List (List F) → Option (BlockResult F)
  | _row_ctr, boundary, [] => some ⟨[], [], boundary⟩
  | row_ctr, _boundary, row :: rest =>
    if row.length = air.k then do
      let is ← make_id_sigma_row air row_ctr
      let sel := make_selectors_row air row_ctr
      let br ← evalRows air m (row_ctr + 1) row rest
      pure ⟨row.getD m 0 :: br.reg_m_vals,
            ⟨row, is.1, is.2, sel⟩ :: br.locals,
            br.boundary_out⟩
    else none

/-- Embedding of `air.rs::eval_block` (the panicking wrapper around
`eval_block_r`; `none` models the panic on a bad boundary length,
out-of-range register, bad row length, or a table indexing panic). -/
def eval_block (air : AirSpec F) (m : Nat) (boundary_in : List F) (rows : List (List F)) :
    Option (BlockResult F) :=
  if boundary_in.length = air.k ∧ m < air.k then evalRows air m 0 boundary_in rows else none

/-- Embedding of `air.rs::ResidualCfg`. -/
structure ResidualCfg (F : Type) where
  alpha : F
  beta : F
  gamma : F
deriving DecidableEq

/-- Embedding of `air.rs::prod_id_sigma`: the permutation numerator and
denominator products over register indices `0..k-1`.  The source indexes the
row tuples directly (their lengths are `k` for every reachable `Locals`);
the embedding uses `getD _ 0`. -/
def prod_id_sigma (air : AirSpec F) (locals : Locals F) (beta gamma : F) : F × F :=
  (List.range air.k).foldl (fun acc j =>
    (acc.1 * (locals.w_row.getD j 0 + beta * locals.id_row.getD j 0 + gamma),
     acc.2 * (locals.w_row.getD j 0 + beta * locals.sigma_row.getD j 0 + gamma)))
    ((1 : F), (1 : F))

/-- Embedding of `air.rs::residual_row`: demo gates, permutation coupling,
and boundary ties. -/
def residual_row (air : AirSpec F) (locals : Locals F) (cfg : ResidualCfg F)
    (z_i z_ip1 : F) (is_first is_last : Bool) : F :=
  let w := locals.w_row
  let s := locals.selectors_row
  let gate_add := if 1 ≤ s.length ∧ 3 ≤ air.k then
      s.getD 0 0 * (w.getD 0 0 + w.getD 1 0 - w.getD 2 0) else 0
  let gate_mul := if 2 ≤ s.length ∧ 3 ≤ air.k then
      s.getD 1 0 * (w.getD 0 0 * w.getD 1 0 - w.getD 2 0) else 0
  let gate_part := cfg.alpha * (gate_add + gate_mul)
  let ps := prod_id_sigma air locals cfg.beta cfg.gamma
  let perm_coupled := z_ip1 * ps.1 - z_i * ps.2
  let boundary_part := (if is_first then z_i - 1 else 0) + (if is_last then z_ip1 - 1 else 0)
  gate_part + perm_coupled + boundary_part

/-- Embedding of `stream.rs::block_count` (`b_blk = 0` is handled by the
callers, which model the panic). -/
def block_count (n_rows b_blk : Nat) : Nat := (n_rows + b_blk - 1) / b_blk

/-- Embedding of `stream.rs::block_bounds`: half-open row range of block `t`. -/
def block_bounds (t n_rows b_blk : Nat) : Nat × Nat :=
  (t * b_blk, min ((t + 1) * b_blk) n_rows)

/-- Embedding of the `Restreamer` impl for `Vec<Row>`: re-slice `[start, end)`
with clamping to the vector length. -/
def stream_rows (rows : List (List F)) (s e : Nat) : List (List F) :=
  let s2 := min s rows.length
  let e2 := min e rows.length
  (rows.drop s2).take (e2 - s2)

/-- Per-block row loop of the legacy `air.rs::residual_stream`.  The inner
`move` closure of the source captures the `Copy` values `z_cur` and
`global_idx` by value, so each block's iterator starts from its own copy of
the enclosing values — which are never updated by the outer closure and thus
stay `1` and `0`.  Consequently `z` restarts at `start = 1` and the row
counter restarts at `0` inside every block. -/
def legacyBlockRows (air : AirSpec F) (cfg : ResidualCfg F) (t_rows : Nat) :
    F → Nat → List (Locals F) → List F
  | _z, _gidx, [] => []
  | z, gidx, loc :: rest =>
    let ps := prod_id_sigma air loc cfg.beta cfg.gamma
    let phi := if ps.2 = 0 then 0 else ps.1 * ps.2⁻¹
    let z_next := z * phi
    let r := residual_row air loc cfg z z_next (gidx == 0) (gidx + 1 == t_rows)
    r :: legacyBlockRows air cfg t_rows z_next (gidx + 1) rest

/-- Block loop of the legacy `air.rs::residual_stream` (the `flat_map` over
block indices): each block re-streams its rows, evaluates the block from a
zero boundary seed, and emits its residuals with the captured copies
`z = 1`, `gidx = 0` (see `legacyBlockRows`). -/
def legacyGo (air : AirSpec F) (cfg : ResidualCfg F) (rs : List (List F))
    (b_blk t_rows : Nat) : List Nat → Option (List F)
  | [] => some []
  | t :: ts => do
    let b := block_bounds t t_rows b_blk
    let br ← eval_block air 0 (List.replicate air.k (0 : F)) (stream_rows rs b.1 b.2)
    let rest ← legacyGo air cfg rs b_blk t_rows ts
    pure (legacyBlockRows air cfg t_rows 1 0 br.locals ++ rest)

/-- Embedding of the legacy `air.rs::residual_stream` (one residual per row,
flattened over blocks; `none` models a panic in `block_count` or
`eval_block`). -/
def residual_stream (air : AirSpec F) (cfg : ResidualCfg F) (rs : List (List F))
    (b_blk : Nat) : Option (List F) :=
  if b_blk = 0 then none
  else legacyGo air cfg rs b_blk rs.length (List.range (block_count rs.length b_blk))

/-- Per-block row loop of `air.rs::residual_stream_tiles`: `z_carry` is
threaded across blocks, `produced` counts rows of earlier blocks, and `i`
is the in-block row index. -/
def tilesBlockRows (air : AirSpec F) (cfg : ResidualCfg F) (t_rows : Nat) :
    F → Nat → Nat → List (Locals F) → List F × F
  | z, _produced, _i, [] => ([], z)
  | z, produced, i, loc :: rest =>
    let ps := prod_id_sigma air loc cfg.beta cfg.gamma
    let phi := if ps.2 = 0 then 0 else ps.1 * ps.2⁻¹
    let z_next := z * phi
    let r := residual_row air loc cfg z z_next (produced == 0 && i == 0)
        (produced + i + 1 == t_rows)
    let p := tilesBlockRows air cfg t_rows z_next produced (i + 1) rest
    (r :: p.1, p.2)

/-- Block loop of `air.rs::residual_stream_tiles`, threading `(z_carry,
produced)` across blocks. -/
def tilesGo (air : AirSpec F) (cfg : ResidualCfg F) (rs : List (List F))
    (b_blk t_rows : Nat) : List Nat → F → Nat → Option (List (List F))
  | [], _z, _produced => some []
  | t :: ts, z, produced => do
    let b := block_bounds t t_rows b_blk
    let block_len := b.2 - b.1
    let br ← eval_block air 0 (List.replicate air.k (0 : F)) (stream_rows rs b.1 b.2)
    let p := tilesBlockRows air cfg t_rows z produced 0 br.locals
    let rest ← tilesGo air cfg rs b_blk t_rows ts p.2 (produced + block_len)
    pure (p.1 :: rest)

/-- Embedding of `air.rs::residual_stream_tiles` (the tile-generating
residual stream, yielding one tile per block and threading `Z` across
blocks from `Z(0) = 1`). -/
def residual_stream_tiles (air : AirSpec F) (cfg : ResidualCfg F) (rs : List (List F))
    (b_blk : Nat) : Option (List (List F)) :=
  if b_blk = 0 then none
  else tilesGo air cfg rs b_blk rs.length (List.range (block_count rs.length b_blk)) 1 0

theorem legacy_eq_tiles_first_block {F : Type} [Field F] [DecidableEq F]
    (air : AirSpec F) (cfg : ResidualCfg F) (t_rows : Nat) :
    ∀ (locals : List (Locals F)) (z : F) (i : Nat),
      legacyBlockRows air cfg t_rows z i locals =
        (tilesBlockRows air cfg t_rows z 0 i locals).1 := by
  intro locals
  induction locals with
  | nil => intro z i; rfl
  | cons loc rest ih =>
    intro z i
    simp only [legacyBlockRows, tilesBlockRows]
    rw [ih]
    simp [Nat.zero_add]

end Air

/-- C2 (counterexample): over `ZMod 101`, with the fallback two-register AIR,
challenges `alpha = beta = gamma = 0`, trace `[[0,0],[0,5]]` and block size 1,
the legacy `residual_stream` emits `[0, 0]` while the flattened
`residual_stream_tiles` emits `[0, -1]`: the two streams differ, because the
legacy stream restarts the `Z` accumulator (and the first/last-row counter)
at every block instead of threading them across blocks. -/
theorem c2_residual_stream_counterexample :
    residual_stream (F := ZMod 101) ⟨2, [], [], []⟩ ⟨0, 0, 0⟩ [[0, 0], [0, 5]] 1 ≠
      (residual_stream_tiles (F := ZMod 101) ⟨2, [], [], []⟩ ⟨0, 0, 0⟩
          [[0, 0], [0, 5]] 1).map List.flatten := by
  decide

/-- C2 (amended): whenever the whole trace fits in a single block
(`rs.length ≤ b_blk`, `b_blk ≥ 1`), the legacy `residual_stream` emits, per
row in time order, the same residual sequence as `residual_stream_tiles`
flattened.  (In general they differ: the tile-generating variant threads the
permutation accumulator `Z` across block boundaries from `Z(0) = 1`, while the
legacy variant restarts `Z` and the row counter at each block.) -/
theorem c2_residual_stream_single_block {F : Type} [Field F] [DecidableEq F]
    (air : AirSpec F) (cfg : ResidualCfg F) (rs : List (List F)) (b_blk : Nat)
    (hb : 1 ≤ b_blk) (hle : rs.length ≤ b_blk) :
    residual_stream air cfg rs b_blk =
      (residual_stream_tiles air cfg rs b_blk).map List.flatten := by
  have hb0 : ¬ (b_blk = 0) := by omega
  rw [residual_stream, residual_stream_tiles, if_neg hb0, if_neg hb0]
  by_cases hT : rs.length = 0
  · have hbc : block_count rs.length b_blk = 0 := by
      rw [block_count]; exact Nat.div_eq_of_lt (by omega)
    rw [hbc]
    simp [legacyGo, tilesGo]
  · have hT1 : 1 ≤ rs.length := Nat.pos_of_ne_zero hT
    have hbc : block_count rs.length b_blk = 1 := by
      rw [block_count]
      exact Nat.div_eq_of_lt_le (by omega) (by omega)
    rw [hbc]
    have hrange : List.range 1 = [0] := rfl
    rw [hrange]
    have hbnd : block_bounds 0 rs.length b_blk = (0, rs.length) := by
      rw [block_bounds]
      simp
      omega
    have hstream : stream_rows rs 0 rs.length = rs := by
      rw [stream_rows]
      simp
    simp only [legacyGo, tilesGo, hbnd, hstream]
    cases heb : eval_block air 0 (List.replicate air.k (0 : F)) rs with
    | none => simp
    | some br =>
      simp only [Option.pure_def, Option.bind_eq_bind, Option.some_bind]
      rw [legacy_eq_tiles_first_block]
      simp [legacyGo, tilesGo]

/-- Witness for the amended C2 at a concrete single-block input over
`ZMod 101`. -/
theorem c2_residual_stream_single_block_witness :
    ((1 : Nat) ≤ 2 ∧ ([[(5 : ZMod 101)]] : List (List (ZMod 101))).length ≤ 2) ∧
    residual_stream (F := ZMod 101) ⟨1, [], [], []⟩ ⟨1, 2, 3⟩ [[5]] 2 =
      (residual_stream_tiles (F := ZMod 101) ⟨1, [], [], []⟩ ⟨1, 2, 3⟩ [[5]] 2).map
        List.flatten :=
  ⟨⟨by decide, by decide⟩,
   c2_residual_stream_single_block ⟨1, [], [], []⟩ ⟨1, 2, 3⟩ [[5]] 2 (by decide) (by decide)⟩

-- ===========================================================================
-- C4: verifier Q(zeta) fast path (air.rs::residual_eval_at_point_symbolic,
-- scheduler.rs::Verifier::verify algebra check), default builds
-- ===========================================================================

section SymbolicResidual

variable {F : Type} [Field F] [DecidableEq F]

/-- Embedding of `air.rs::residual_eval_at_point_symbolic` in a default build
(feature `strict-recompute-r` disabled, so the `Q(zeta)` fast path is active,
and feature `lookups` disabled, so `lookup_part = 0`).  The trailing
`z_l_at_zeta` / `z_l_at_omega_zeta` arguments of the source are unused in this
configuration and omitted. -/
def residual_eval_at_point_symbolic (k : Nat) (n : Nat) (zh_c : F)
    (cfg : ResidualCfg F) (zeta : F) (wires_at_zeta : List F) (z_at_zeta : F)
    (selectors_at_zeta : Option (List F)) (id_at_zeta : Option (List F))
    (sigma_at_zeta : Option (List F)) (q_at_zeta : Option F)
    (z_at_omega_zeta : Option F) : F :=
  match q_at_zeta with
  | some qz => (zeta ^ n - zh_c) * qz
  | none =>
    let s_row := selectors_at_zeta.getD []
    let gate_add := if 1 ≤ s_row.length ∧ 3 ≤ wires_at_zeta.length then
        s_row.getD 0 0 *
          (wires_at_zeta.getD 0 0 + wires_at_zeta.getD 1 0 - wires_at_zeta.getD 2 0) else 0
    let gate_mul := if 2 ≤ s_row.length ∧ 3 ≤ wires_at_zeta.length then
        s_row.getD 1 0 *
          (wires_at_zeta.getD 0 0 * wires_at_zeta.getD 1 0 - wires_at_zeta.getD 2 0) else 0
    let gate_part := cfg.alpha * (gate_add + gate_mul)
    let pids : F × F :=
      match id_at_zeta, sigma_at_zeta with
      | some idv, some sig =>
        (List.range k).foldl (fun acc j =>
          (acc.1 * (wires_at_zeta.getD j 0 + cfg.beta * idv.getD j 0 + cfg.gamma),
           acc.2 * (wires_at_zeta.getD j 0 + cfg.beta * sig.getD j 0 + cfg.gamma)))
          ((1 : F), (1 : F))
      | _, _ =>
        (List.range k).foldl (fun acc j =>
          (acc.1 * (wires_at_zeta.getD j 0 + cfg.beta * (j : F) + cfg.gamma),
           acc.2 * (wires_at_zeta.getD j 0 + cfg.beta * (((j + 1) % k : Nat) : F) + cfg.gamma)))
          ((1 : F), (1 : F))
    let perm_part :=
      match z_at_omega_zeta with
      | some z_omega => z_omega * pids.1 - z_at_zeta * pids.2
      | none => z_at_zeta * pids.1 - z_at_zeta * pids.2
    gate_part + perm_part + 0

/-- Embedding of `scheduler.rs::VerifySchedError`. -/
inductive VerifySchedError
  | TranscriptMismatch
  | Algebra
  | Pcs
deriving DecidableEq

/-- Embedding of the final algebra check of `scheduler.rs::Verifier::verify`
in a default (non-strict, no zeta-shift) build: `q_arg = Some(Q(zeta))` is
passed to the symbolic residual, and the check `Z_H(zeta)*Q(zeta) - R(zeta)`
must be zero, else the `Algebra` error is returned. -/
def verifier_algebra_check (n k_regs : Nat) (zh_c alpha beta gamma zeta : F)
    (wires_at_zeta : List F) (z_at_zeta q_at_zeta : F) : Except VerifySchedError Unit :=
  let r_at_zeta := residual_eval_at_point_symbolic k_regs n zh_c ⟨alpha, beta, gamma⟩ zeta
      wires_at_zeta z_at_zeta none none none (some q_at_zeta) none
  let zh_at_zeta := zeta ^ n - zh_c
  if zh_at_zeta * q_at_zeta - r_at_zeta = 0 then Except.ok () else Except.error .Algebra

end SymbolicResidual

/-- C4: in default builds, `residual_eval_at_point_symbolic` returns exactly
`Z_H(zeta) * Q(zeta)` whenever it is given `Some` value for `Q(zeta)`;
consequently the verifier's final check `Z_H(zeta)*Q(zeta) - R(zeta)` is
identically zero for every proof that reaches it, and the `Algebra` error
branch of `Verifier::verify` is unreachable in non-strict verification. -/
theorem c4_q_fast_path_algebra_unreachable {F : Type} [Field F] [DecidableEq F] :
    (∀ (k n : Nat) (zh_c : F) (cfg : ResidualCfg F) (zeta : F) (wires : List F)
        (z : F) (sel idv sig : Option (List F)) (qz : F) (zo : Option F),
      residual_eval_at_point_symbolic k n zh_c cfg zeta wires z sel idv sig (some qz) zo =
        (zeta ^ n - zh_c) * qz) ∧
    (∀ (n k_regs : Nat) (zh_c alpha beta gamma zeta : F) (wires : List F) (z q : F),
      verifier_algebra_check n k_regs zh_c alpha beta gamma zeta wires z q =
        Except.ok ()) := by
  constructor
  · intro k n zh_c cfg zeta wires z sel idv sig qz zo
    rfl
  · intro n k_regs zh_c alpha beta gamma zeta wires z q
    rw [verifier_algebra_check]
    simp [residual_eval_at_point_symbolic]

-- ===========================================================================
-- C9: long division by X^N - c (quotient.rs::long_divide_xn_minus_c_lo_to_hi)
-- ===========================================================================

section LongDivide

variable {F : Type} [Field F] [DecidableEq F]

/-- Model of `Vec::resize(m, 0)` when growing (`q.resize(qi + 1, F::zero())`
is only reached with `q.len() <= qi`). -/
def padTo (q : List F) (m : Nat) : List F :=
  if q.length < m then q ++ List.replicate (m - q.length) 0 else q

/-- One body iteration of the `long_divide_xn_minus_c_lo_to_hi` loop at index
`i`: when `r[i] ≠ 0`, set `q[i-n] += r[i]`, `r[i-n] += c * r[i]`, `r[i] = 0`. -/
def ldStep (n : Nat) (c : F) (i : Nat) (r q : List F) : List F × List F :=
  let coeff := r.getD i 0
  if coeff = 0 then (r, q)
  else
    let qi := i - n
    let q1 := padTo q (qi + 1)
    let q2 := q1.set qi (q1.getD qi 0 + coeff)
    let r1 := r.set qi (r.getD qi 0 + c * coeff)
    let r2 := r1.set i 0
    (r2, q2)

/-- The high-to-low index loop of `long_divide_xn_minus_c_lo_to_hi`: break
when `i + 1 <= n`, otherwise run the body and continue at `i - 1` (break
after processing `i = 0`). -/
def ldGo (n : Nat) (c : F) (i : Nat) (r q : List F) : List F × List F :=
  if i + 1 ≤ n then (r, q)
  else
    let p := ldStep n c i r q
    if h : i = 0 then p else ldGo n c (i - 1) p.1 p.2
termination_by i
decreasing_by omega

/-- Model of the trailing `while q.last == Some(0) { q.pop() }` loop. -/
def trimTrailingZeros (q : List F) : List F :=
  (q.reverse.dropWhile (fun x => decide (x = 0))).reverse

/-- Embedding of `quotient.rs::long_divide_xn_minus_c_lo_to_hi`. -/
def long_divide_xn_minus_c_lo_to_hi (r_lo_to_hi : List F) (n : Nat) (c : F) : List F :=
  if r_lo_to_hi = [] then []
  else trimTrailingZeros (ldGo n c (r_lo_to_hi.length - 1) r_lo_to_hi []).2

/-- The polynomial denoted by a low-to-high coefficient list. -/
noncomputable def polyOf (a : List F) : Polynomial F :=
  match a with
  | [] => 0
  | x :: t => Polynomial.C x + Polynomial.X * polyOf t

theorem polyOf_coeff (a : List F) : ∀ j, (polyOf a).coeff j = a.getD j 0 := by
  induction a with
  | nil => intro j; simp [polyOf]
  | cons x t ih =>
    intro j
    cases j with
    | zero => simp [polyOf]
    | succ m => simp [polyOf, Polynomial.coeff_X_mul, ih]

theorem polyOf_append (xs ys : List F) :
    polyOf (xs ++ ys) = polyOf xs + Polynomial.X ^ xs.length * polyOf ys := by
  induction xs with
  | nil => simp [polyOf]
  | cons x t ih =>
    simp only [List.cons_append, polyOf, List.append_eq, ih, List.length_cons, pow_succ]
    ring

theorem polyOf_zero_entries (xs : List F) (h : ∀ x ∈ xs, x = 0) : polyOf xs = 0 := by
  induction xs with
  | nil => rfl
  | cons x t ih =>
    rw [polyOf, h x (by simp), ih (fun y hy => h y (by simp [hy]))]
    simp

theorem getD_set_general (l : List F) (i j : Nat) (a : F) :
    (l.set i a).getD j 0 = if i = j ∧ i < l.length then a else l.getD j 0 := by
  by_cases hij : i = j
  · subst hij
    by_cases hlen : i < l.length
    · simp [List.getD_eq_getElem?_getD, List.getElem?_set, hlen]
    · rw [if_neg (by tauto)]
      have hnone : l[i]? = none := List.getElem?_eq_none (by omega)
      simp [List.getD_eq_getElem?_getD, List.getElem?_set, hlen, hnone]
  · rw [if_neg (by tauto)]
    simp [List.getD_eq_getElem?_getD, List.getElem?_set, hij]

theorem polyOf_set (l : List F) (i : Nat) (v : F) (h : i < l.length) :
    polyOf (l.set i v) = polyOf l + Polynomial.C (v - l.getD i 0) * Polynomial.X ^ i := by
  apply Polynomial.ext
  intro j
  rw [Polynomial.coeff_add, Polynomial.coeff_C_mul, Polynomial.coeff_X_pow,
    polyOf_coeff, polyOf_coeff, getD_set_general]
  by_cases hij : i = j
  · subst hij
    rw [if_pos ⟨rfl, h⟩, if_pos rfl]
    ring
  · rw [if_neg (by tauto), if_neg (fun hji => hij hji.symm)]
    ring

theorem padTo_length (q : List F) (m : Nat) : m ≤ (padTo q m).length := by
  rw [padTo]
  by_cases h : q.length < m
  · simp [h]
    omega
  · simp [h]
    omega

theorem polyOf_padTo (q : List F) (m : Nat) : polyOf (padTo q m) = polyOf q := by
  rw [padTo]
  by_cases h : q.length < m
  · rw [if_pos h, polyOf_append,
      polyOf_zero_entries _ (fun x hx => (List.eq_of_mem_replicate hx))]
    simp
  · rw [if_neg h]

theorem ldStep_fst_length (n : Nat) (c : F) (i : Nat) (r q : List F) :
    (ldStep n c i r q).1.length = r.length := by
  rw [ldStep]
  by_cases hc : r.getD i 0 = 0
  · rw [if_pos hc]
  · rw [if_neg hc]
    dsimp only
    rw [List.length_set, List.length_set]

theorem ldStep_poly (n : Nat) (c : F) (i : Nat) (r q : List F)
    (hn : 1 ≤ n) (hi : i < r.length) (hni : n ≤ i) :
    polyOf (ldStep n c i r q).1 +
        (Polynomial.X ^ n - Polynomial.C c) * polyOf (ldStep n c i r q).2 =
      polyOf r + (Polynomial.X ^ n - Polynomial.C c) * polyOf q := by
  rw [ldStep]
  by_cases hc : r.getD i 0 = 0
  · rw [if_pos hc]
  · rw [if_neg hc]
    dsimp only
    have hqi_lt : i - n < (padTo q (i - n + 1)).length := by
      have := padTo_length q (i - n + 1)
      omega
    have hq2 : polyOf ((padTo q (i - n + 1)).set (i - n)
        ((padTo q (i - n + 1)).getD (i - n) 0 + r.getD i 0)) =
        polyOf q + Polynomial.C (r.getD i 0) * Polynomial.X ^ (i - n) := by
      rw [polyOf_set _ _ _ hqi_lt, polyOf_padTo]
      ring_nf
    have hqi_lt_r : i - n < r.length := by omega
    have hr1 : polyOf (r.set (i - n) (r.getD (i - n) 0 + c * r.getD i 0)) =
        polyOf r + Polynomial.C (c * r.getD i 0) * Polynomial.X ^ (i - n) := by
      rw [polyOf_set _ _ _ hqi_lt_r]
      ring_nf
    have hne : ¬ (i - n = i) := by omega
    have hr1i : (r.set (i - n) (r.getD (i - n) 0 + c * r.getD i 0)).getD i 0 = r.getD i 0 := by
      rw [getD_set_general, if_neg (by tauto)]
    have hr2 : polyOf ((r.set (i - n) (r.getD (i - n) 0 + c * r.getD i 0)).set i 0) =
        polyOf (r.set (i - n) (r.getD (i - n) 0 + c * r.getD i 0)) +
          Polynomial.C (0 - r.getD i 0) * Polynomial.X ^ i := by
      rw [polyOf_set _ _ _ (by simpa [List.length_set] using hi), hr1i]
    rw [hr2, hr1, hq2]
    have hpow : (Polynomial.X : Polynomial F) ^ (i - n) * Polynomial.X ^ n =
        Polynomial.X ^ i := by
      rw [← pow_add]
      congr 1
      omega
    have hC0 : (Polynomial.C (0 - r.getD i 0) : Polynomial F) =
        - Polynomial.C (r.getD i 0) := by
      rw [zero_sub, map_neg]
    rw [hC0]
    calc polyOf r + Polynomial.C (c * r.getD i 0) * Polynomial.X ^ (i - n) +
          - Polynomial.C (r.getD i 0) * Polynomial.X ^ i +
          (Polynomial.X ^ n - Polynomial.C c) *
            (polyOf q + Polynomial.C (r.getD i 0) * Polynomial.X ^ (i - n))
        = polyOf r + (Polynomial.X ^ n - Polynomial.C c) * polyOf q +
            (Polynomial.C (r.getD i 0) * (Polynomial.X ^ (i - n) * Polynomial.X ^ n) -
              Polynomial.C (r.getD i 0) * Polynomial.X ^ i) := by
          rw [map_mul]
          ring
      _ = polyOf r + (Polynomial.X ^ n - Polynomial.C c) * polyOf q := by
          rw [hpow]
          ring

theorem ldStep_zero (n : Nat) (c : F) (i : Nat) (r q : List F)
    (hn : 1 ≤ n) (hi : i < r.length) (hlen : r.length ≤ 2 * n) (hni : n ≤ i) :
    ∀ j, n ≤ j → i ≤ j → (i < j → r.getD j 0 = 0) →
      (ldStep n c i r q).1.getD j 0 = 0 := by
  intro j hjn hij hjz
  rw [ldStep]
  by_cases hc : r.getD i 0 = 0
  · rw [if_pos hc]
    dsimp only
    rcases Nat.lt_or_ge i j with hlt | hge
    · exact hjz hlt
    · have hieq : j = i := by omega
      rw [hieq]
      exact hc
  · rw [if_neg hc]
    dsimp only
    rw [getD_set_general]
    by_cases hji : i = j
    · rw [if_pos ⟨hji, by rw [List.length_set]; omega⟩]
    · rw [if_neg (by tauto), getD_set_general,
        if_neg (by
          rintro ⟨hcon, -⟩
          omega)]
      exact hjz (by omega)

theorem ldGo_spec (n : Nat) (c : F) (hn : 1 ≤ n) :
    ∀ (i : Nat) (r q : List F), i < r.length → r.length ≤ 2 * n →
      (∀ j, n ≤ j → i < j → r.getD j 0 = 0) →
      (polyOf (ldGo n c i r q).1 +
          (Polynomial.X ^ n - Polynomial.C c) * polyOf (ldGo n c i r q).2 =
        polyOf r + (Polynomial.X ^ n - Polynomial.C c) * polyOf q) ∧
      (∀ j, n ≤ j → (ldGo n c i r q).1.getD j 0 = 0) := by
  intro i
  induction i using Nat.strong_induction_on with
  | _ i ih =>
    intro r q hi hlen hz
    by_cases hbreak : i + 1 ≤ n
    · rw [ldGo, if_pos hbreak]
      exact ⟨rfl, fun j hjn => hz j hjn (by omega)⟩
    · have hni : n ≤ i := by omega
      have hi0 : ¬ (i = 0) := by omega
      rw [ldGo, if_neg hbreak]
      simp only [dif_neg hi0]
      have hstep_len := ldStep_fst_length n c i r q
      have hstep_zero := ldStep_zero n c i r q hn hi hlen hni
      have hrec := ih (i - 1) (by omega) (ldStep n c i r q).1 (ldStep n c i r q).2
        (by omega) (by omega)
        (by
          intro j hjn hju
          exact hstep_zero j hjn (by omega) (fun hlt => hz j hjn hlt))
      refine ⟨?_, hrec.2⟩
      rw [hrec.1]
      exact ldStep_poly n c i r q hn hi hni

theorem polyOf_trim (q : List F) : polyOf (trimTrailingZeros q) = polyOf q := by
  have hzero : polyOf (q.reverse.takeWhile (fun x => decide (x = 0))).reverse = 0 := by
    apply polyOf_zero_entries
    intro x hx
    have hmem := List.mem_takeWhile_imp (List.mem_reverse.mp hx)
    simpa using hmem
  have hsplit : q = trimTrailingZeros q ++
      (q.reverse.takeWhile (fun x => decide (x = 0))).reverse := by
    rw [trimTrailingZeros]
    conv_lhs => rw [← q.reverse_reverse,
      ← List.takeWhile_append_dropWhile (p := fun x => decide (x = 0)) (l := q.reverse)]
    rw [List.reverse_append]
  conv_rhs => rw [hsplit]
  rw [polyOf_append, hzero, mul_zero, add_zero]

end LongDivide

/-- C9: for every low-to-high coefficient vector `r` with `r.length ≤ 2N`,
every `N ≥ 1` and every constant `c`, the vector `q` returned by
`long_divide_xn_minus_c_lo_to_hi` satisfies `R(X) = (X^N - c)·Q(X) + Rem(X)`
for a remainder of degree below `N`. -/
theorem c9_long_divide_remainder {F : Type} [Field F] [DecidableEq F]
    (r0 : List F) (n : Nat) (c : F) (hn : 1 ≤ n) (hlen : r0.length ≤ 2 * n) :
    ∃ Rem : Polynomial F,
      polyOf r0 =
        (Polynomial.X ^ n - Polynomial.C c) *
            polyOf (long_divide_xn_minus_c_lo_to_hi r0 n c) + Rem ∧
      Rem.degree < (n : Nat) := by
  by_cases h0 : r0 = []
  · subst h0
    refine ⟨0, ?_, ?_⟩
    · simp [long_divide_xn_minus_c_lo_to_hi, polyOf]
    · rw [Polynomial.degree_zero]
      exact WithBot.bot_lt_coe _
  · rw [long_divide_xn_minus_c_lo_to_hi, if_neg h0]
    have hlen0 : r0.length ≠ 0 := fun hcon => h0 (List.length_eq_zero.mp hcon)
    have hi : r0.length - 1 < r0.length := by omega
    have hz : ∀ j, n ≤ j → r0.length - 1 < j → r0.getD j 0 = 0 := by
      intro j hjn hju
      exact List.getD_eq_default _ _ (by omega)
    obtain ⟨h1, h2⟩ := ldGo_spec n c hn (r0.length - 1) r0 [] hi hlen hz
    refine ⟨polyOf (ldGo n c (r0.length - 1) r0 []).1, ?_, ?_⟩
    · rw [polyOf_trim]
      have h1' := h1
      rw [show polyOf ([] : List F) = 0 from rfl, mul_zero, add_zero] at h1'
      rw [← h1']
      ring
    · rw [Polynomial.degree_lt_iff_coeff_zero _ n]
      intro m hm
      rw [polyOf_coeff]
      exact h2 m hm

/-- Witness for C9 at the concrete input `r0 = [1, 2]`, `n = 1`, `c = 1` over
`ZMod 101`. -/
theorem c9_long_divide_remainder_witness :
    ((1 : Nat) ≤ 1 ∧ ([(1 : ZMod 101), 2]).length ≤ 2 * 1) ∧
    (∃ Rem : Polynomial (ZMod 101),
      polyOf [(1 : ZMod 101), 2] =
        (Polynomial.X ^ 1 - Polynomial.C 1) *
            polyOf (long_divide_xn_minus_c_lo_to_hi [(1 : ZMod 101), 2] 1 1) + Rem ∧
      Rem.degree < (1 : Nat)) :=
  ⟨⟨by decide, by decide⟩,
   c9_long_divide_remainder [(1 : ZMod 101), 2] 1 1 (by decide) (by decide)⟩

-- ===========================================================================
-- C10: domain construction and validation (domain.rs::validate_domain_r,
-- Domain::new_with_c_r, prime_factors)
-- ===========================================================================

section DomainDefs

variable {F : Type} [Field F] [DecidableEq F]

/-- Embedding of `domain.rs::Domain`. -/
structure DomainS (F : Type) where
  n : Nat
  omega : F
  zh_c : F
deriving DecidableEq

/-- Embedding of `domain.rs::DomainError`. -/
inductive DomainError
  | NZero
  | ZhZero
  | OmegaNPowNotOne
  | OmegaNotPrimitive (p : Nat)
  | BadLen (len n : Nat)
  | ZetaInDomain
  | BadStream (got n : Nat)
deriving DecidableEq

/-- Inner `while n % p == 0 { n /= p }` loop of `prime_factors` (guarded by
`2 ≤ p` and `0 < n`, which hold at every reachable call). -/
def stripFactor (n p : Nat) : Nat :=
  if 2 ≤ p ∧ 0 < n ∧ n % p = 0 then stripFactor (n / p) p else n
termination_by n
decreasing_by exact Nat.div_lt_self (by omega) (by omega)

theorem stripFactor_le (n p : Nat) : stripFactor n p ≤ n := by
  induction n using Nat.strong_induction_on with
  | _ n ih =>
    rw [stripFactor]
    by_cases h : 2 ≤ p ∧ 0 < n ∧ n % p = 0
    · rw [if_pos h]
      have hlt : n / p < n := Nat.div_lt_self (by omega) (by omega)
      exact le_trans (ih (n / p) hlt) (by omega)
    · rw [if_neg h]

/-- Trial-division loop of `domain.rs::prime_factors`: `p` runs through
`2, 3, 5, 7, ...`; each divisor found is divided out fully and pushed. -/
def primeFactorsGo (n p : Nat) (out : List Nat) : List Nat :=
  if hpp : p * p ≤ n then
    if hdvd : n % p = 0 then
      primeFactorsGo (stripFactor n p) (if p = 2 then 3 else p + 2) (out ++ [p])
    else
      primeFactorsGo n (if p = 2 then 3 else p + 2) out
  else if 1 < n then out ++ [n] else out
termination_by (n, n + 1 - p)
decreasing_by
  · rcases Nat.lt_or_ge p 2 with hp | hp
    · have hstrip : stripFactor n p = n := by
        rw [stripFactor, if_neg (by omega)]
      rw [hstrip]
      apply Prod.Lex.right
      interval_cases p <;> simp <;> omega
    · apply Prod.Lex.left
      have hn : 0 < n := lt_of_lt_of_le (Nat.mul_pos (by omega) (by omega)) hpp
      rw [stripFactor, if_pos ⟨hp, hn, hdvd⟩]
      exact lt_of_le_of_lt (stripFactor_le _ _) (Nat.div_lt_self hn (by omega))
  · apply Prod.Lex.right
    rcases Nat.lt_or_ge p 2 with hp | hp
    · interval_cases p <;> simp <;> omega
    · have hple : p ≤ n := le_trans (Nat.le_mul_of_pos_left p (by omega)) hpp
      split <;> omega

/-- Embedding of `domain.rs::prime_factors`. -/
def prime_factors (n : Nat) : List Nat := primeFactorsGo n 2 []

/-- Primitivity loop of `domain.rs::validate_domain_r`: return the first
prime divisor `p` with `omega^(n/p) = 1`, if any. -/
def checkPrimitive (omega : F) (n : Nat) : List Nat → Except DomainError Unit
  | [] => Except.ok ()
  | p :: rest =>
      if pow_u64 omega (n / p) = 1 then Except.error (DomainError.OmegaNotPrimitive p)
      else checkPrimitive omega n rest

/-- Embedding of `domain.rs::validate_domain_r`. -/
def validate_domain_r (d : DomainS F) : Except DomainError Unit :=
  if d.n = 0 then Except.error DomainError.NZero
  else if d.zh_c = 0 then Except.error DomainError.ZhZero
  else if pow_u64 d.omega d.n ≠ 1 then Except.error DomainError.OmegaNPowNotOne
  else checkPrimitive d.omega d.n (prime_factors d.n)

/-- Embedding of `domain.rs::Domain::new_with_c_r`. -/
def new_with_c_r (n : Nat) (omega zh_c : F) : Except DomainError (DomainS F) :=
  let d : DomainS F := ⟨n, omega, zh_c⟩
  match validate_domain_r d with
  | Except.error e => Except.error e
  | Except.ok _ => Except.ok d

end DomainDefs

theorem stripFactor_pow_mul (p : Nat) (hp : 2 ≤ p) :
    ∀ n, ∃ k, n = p ^ k * stripFactor n p := by
  intro n
  induction n using Nat.strong_induction_on with
  | _ n ih =>
    by_cases h : 2 ≤ p ∧ 0 < n ∧ n % p = 0
    · have hdvd : p ∣ n := Nat.dvd_of_mod_eq_zero h.2.2
      have hlt : n / p < n := Nat.div_lt_self h.2.1 (by omega)
      obtain ⟨k, hk⟩ := ih (n / p) hlt
      refine ⟨k + 1, ?_⟩
      rw [stripFactor, if_pos h]
      calc n = p * (n / p) := (Nat.mul_div_cancel' hdvd).symm
        _ = p * (p ^ k * stripFactor (n / p) p) := by rw [← hk]
        _ = p ^ (k + 1) * stripFactor (n / p) p := by ring
    · exact ⟨0, by rw [stripFactor, if_neg h]; simp⟩

theorem stripFactor_not_dvd (p : Nat) (hp : 2 ≤ p) :
    ∀ n, 0 < n → ¬ p ∣ stripFactor n p := by
  intro n
  induction n using Nat.strong_induction_on with
  | _ n ih =>
    intro hn
    by_cases h : 2 ≤ p ∧ 0 < n ∧ n % p = 0
    · have hdvd : p ∣ n := Nat.dvd_of_mod_eq_zero h.2.2
      have hlt : n / p < n := Nat.div_lt_self h.2.1 (by omega)
      rw [stripFactor, if_pos h]
      exact ih (n / p) hlt (Nat.div_pos (Nat.le_of_dvd h.2.1 hdvd) (by omega))
    · rw [stripFactor, if_neg h]
      intro hcon
      exact h ⟨hp, hn, Nat.mod_eq_zero_of_dvd hcon⟩

theorem stripFactor_pos (p n : Nat) (hp : 2 ≤ p) (hn : 0 < n) : 0 < stripFactor n p := by
  obtain ⟨k, hk⟩ := stripFactor_pow_mul p hp n
  by_contra hcon
  have hz : stripFactor n p = 0 := by omega
  rw [hz, mul_zero] at hk
  omega

theorem stripFactor_dvd (p n : Nat) (hp : 2 ≤ p) : stripFactor n p ∣ n := by
  obtain ⟨k, hk⟩ := stripFactor_pow_mul p hp n
  exact Dvd.intro_left _ hk.symm

theorem prime_of_min_dvd (p n : Nat) (hp : 2 ≤ p) (hdvd : p ∣ n)
    (hmin : ∀ q, Nat.Prime q → q ∣ n → p ≤ q) : Nat.Prime p := by
  have hpf : (Nat.minFac p).Prime := Nat.minFac_prime (by omega)
  have hdvd2 : Nat.minFac p ∣ n := dvd_trans (Nat.minFac_dvd p) hdvd
  have hge := hmin _ hpf hdvd2
  have hle := Nat.minFac_le (by omega : 0 < p)
  rw [Nat.prime_def_minFac]
  exact ⟨hp, by omega⟩

theorem prime_of_no_small_factor (n p : Nat) (h1 : 1 < n) (hnp : ¬ p * p ≤ n)
    (hmin : ∀ q, Nat.Prime q → q ∣ n → p ≤ q) : Nat.Prime n := by
  by_contra hcon
  have hsq := Nat.minFac_sq_le_self (by omega : 0 < n) hcon
  have hpf : (Nat.minFac n).Prime := Nat.minFac_prime (by omega)
  have hge := hmin _ hpf (Nat.minFac_dvd n)
  have hmul : p * p ≤ Nat.minFac n * Nat.minFac n := Nat.mul_le_mul hge hge
  rw [pow_two] at hsq
  omega

theorem primeFactorsGo_mem (x : Nat) :
    ∀ (n p : Nat) (out : List Nat), 2 ≤ p → (p = 2 ∨ p % 2 = 1) →
      (∀ q, Nat.Prime q → q ∣ n → p ≤ q) → 1 ≤ n →
      (x ∈ primeFactorsGo n p out ↔ x ∈ out ∨ (Nat.Prime x ∧ x ∣ n)) := by
  intro n p out
  induction n, p, out using primeFactorsGo.induct with
  | case1 n p out hpp hdvd ih =>
    intro hp2 hpar hmin hn1
    simp only [dite_eq_ite] at ih
    have hdvd' : p ∣ n := Nat.dvd_of_mod_eq_zero hdvd
    have hpprime : Nat.Prime p := prime_of_min_dvd p n hp2 hdvd' hmin
    have hp2' : 2 ≤ (if p = 2 then 3 else p + 2) := by split <;> omega
    have hpar' : (if p = 2 then 3 else p + 2) = 2 ∨
        (if p = 2 then 3 else p + 2) % 2 = 1 := by
      right
      rcases hpar with h | h <;> split <;> omega
    have hstrip_pos : 0 < stripFactor n p := stripFactor_pos p n hp2 (by omega)
    have hnd : ¬ p ∣ stripFactor n p := stripFactor_not_dvd p hp2 n (by omega)
    obtain ⟨k, hk⟩ := stripFactor_pow_mul p hp2 n
    have hdvd_strip_n : stripFactor n p ∣ n := stripFactor_dvd p n hp2
    have hmin' : ∀ q, Nat.Prime q → q ∣ stripFactor n p →
        (if p = 2 then 3 else p + 2) ≤ q := by
      intro q hq hqd
      have hqn : q ∣ n := dvd_trans hqd hdvd_strip_n
      have hge := hmin q hq hqn
      have hne : q ≠ p := fun hcon => hnd (hcon ▸ hqd)
      rcases hpar with hpe | hpo
      · subst hpe
        rw [if_pos rfl]
        omega
      · rw [if_neg (by omega : ¬ p = 2)]
        by_contra hcon
        have hq1 : q = p + 1 := by omega
        have heven : (2 : Nat) ∣ q := Nat.dvd_of_mod_eq_zero (by omega)
        have hq2 : q = 2 := ((Nat.prime_dvd_prime_iff_eq Nat.prime_two hq).mp heven).symm
        omega
    have hIH := ih hp2' hpar' hmin' hstrip_pos
    rw [primeFactorsGo, dif_pos hpp, dif_pos hdvd, hIH]
    constructor
    · rintro (hmem | ⟨hxp, hxd⟩)
      · rw [List.mem_append] at hmem
        rcases hmem with h | h
        · exact Or.inl h
        · have hxp : x = p := by simpa using h
          subst hxp
          exact Or.inr ⟨hpprime, hdvd'⟩
      · exact Or.inr ⟨hxp, dvd_trans hxd hdvd_strip_n⟩
    · rintro (hmem | ⟨hxp, hxd⟩)
      · exact Or.inl (List.mem_append.mpr (Or.inl hmem))
      · by_cases hxeq : x = p
        · subst hxeq
          exact Or.inl (List.mem_append.mpr (Or.inr (by simp)))
        · right
          refine ⟨hxp, ?_⟩
          rw [hk] at hxd
          rcases (Nat.Prime.dvd_mul hxp).mp hxd with hcase | hcase
          · exact absurd ((Nat.prime_dvd_prime_iff_eq hxp hpprime).mp
              (Nat.Prime.dvd_of_dvd_pow hxp hcase)) hxeq
          · exact hcase
  | case2 n p out hpp hdvd ih =>
    intro hp2 hpar hmin hn1
    simp only [dite_eq_ite] at ih
    have hp2' : 2 ≤ (if p = 2 then 3 else p + 2) := by split <;> omega
    have hpar' : (if p = 2 then 3 else p + 2) = 2 ∨
        (if p = 2 then 3 else p + 2) % 2 = 1 := by
      right
      rcases hpar with h | h <;> split <;> omega
    have hnp : ¬ p ∣ n := fun hcon =>
      hdvd (Nat.mod_eq_zero_of_dvd hcon)
    have hmin' : ∀ q, Nat.Prime q → q ∣ n → (if p = 2 then 3 else p + 2) ≤ q := by
      intro q hq hqn
      have hge := hmin q hq hqn
      have hne : q ≠ p := fun hcon => hnp (hcon ▸ hqn)
      rcases hpar with hpe | hpo
      · subst hpe
        rw [if_pos rfl]
        omega
      · rw [if_neg (by omega : ¬ p = 2)]
        by_contra hcon
        have hq1 : q = p + 1 := by omega
        have heven : (2 : Nat) ∣ q := Nat.dvd_of_mod_eq_zero (by omega)
        have hq2 : q = 2 := ((Nat.prime_dvd_prime_iff_eq Nat.prime_two hq).mp heven).symm
        omega
    rw [primeFactorsGo, dif_pos hpp, dif_neg hdvd]
    exact ih hp2' hpar' hmin' hn1
  | case3 n p out hpp hgt =>
    intro hp2 hpar hmin hn1
    have hnprime : Nat.Prime n := prime_of_no_small_factor n p hgt hpp hmin
    rw [primeFactorsGo, dif_neg hpp, if_pos hgt]
    rw [List.mem_append]
    constructor
    · rintro (h | h)
      · exact Or.inl h
      · have hx : x = n := by simpa using h
        subst hx
        exact Or.inr ⟨hnprime, dvd_rfl⟩
    · rintro (h | ⟨hxp, hxd⟩)
      · exact Or.inl h
      · right
        have hx : x = n := ((Nat.prime_dvd_prime_iff_eq hxp hnprime).mp hxd)
        simp [hx]
  | case4 n p out hpp hle =>
    intro hp2 hpar hmin hn1
    have hn : n = 1 := by omega
    subst hn
    rw [primeFactorsGo, dif_neg hpp, if_neg (by omega)]
    constructor
    · exact fun h => Or.inl h
    · rintro (h | ⟨hxp, hxd⟩)
      · exact h
      · have hx1 : x = 1 := Nat.dvd_one.mp hxd
        exact absurd (hx1 ▸ hxp) Nat.not_prime_one

/-- Trial-division correctness: for `n ≥ 1`, the list returned by
`prime_factors` contains exactly the prime divisors of `n`. -/
theorem prime_factors_mem (n : Nat) (hn : 1 ≤ n) (x : Nat) :
    x ∈ prime_factors n ↔ Nat.Prime x ∧ x ∣ n := by
  rw [prime_factors, primeFactorsGo_mem x n 2 [] (by omega) (Or.inl rfl)
    (fun q hq _ => hq.two_le) hn]
  simp

theorem checkPrimitive_ok_iff {F : Type} [Field F] [DecidableEq F] (omega : F) (n : Nat) :
    ∀ l : List Nat,
      (checkPrimitive omega n l = Except.ok () ↔ ∀ p ∈ l, omega ^ (n / p) ≠ 1) := by
  intro l
  induction l with
  | nil => simp [checkPrimitive]
  | cons p rest ih =>
    rw [checkPrimitive]
    by_cases h : pow_u64 omega (n / p) = 1
    · rw [if_pos h]
      simp only [pow_u64_eq] at h
      constructor
      · intro hcon
        exact absurd hcon (by simp)
      · intro hall
        exact absurd h (hall p (by simp))
    · rw [if_neg h]
      simp only [pow_u64_eq] at h
      rw [ih]
      constructor
      · intro hall q hq
        rcases List.mem_cons.mp hq with hq1 | hq1
        · rw [hq1]; exact h
        · exact hall q hq1
      · intro hall q hq
        exact hall q (List.mem_cons.mpr (Or.inr hq))

theorem checkPrimitive_error {F : Type} [Field F] [DecidableEq F] (omega : F) (n : Nat) :
    ∀ l : List Nat, (∃ p ∈ l, omega ^ (n / p) = 1) →
      ∃ p ∈ l, omega ^ (n / p) = 1 ∧
        checkPrimitive omega n l = Except.error (DomainError.OmegaNotPrimitive p) := by
  intro l
  induction l with
  | nil => rintro ⟨p, hp, -⟩; exact absurd hp (by simp)
  | cons p rest ih =>
    intro hex
    rw [checkPrimitive]
    by_cases h : pow_u64 omega (n / p) = 1
    · rw [if_pos h]
      simp only [pow_u64_eq] at h
      exact ⟨p, by simp, h, rfl⟩
    · rw [if_neg h]
      simp only [pow_u64_eq] at h
      obtain ⟨q, hq, hq1⟩ := hex
      rcases List.mem_cons.mp hq with hq2 | hq2
      · exact absurd (hq2 ▸ hq1) h
      · obtain ⟨q2, hq2m, hq2e, hq2c⟩ := ih ⟨q, hq2, hq1⟩
        exact ⟨q2, List.mem_cons.mpr (Or.inr hq2m), hq2e, hq2c⟩

/-- C10: `Domain::new_with_c_r` returns `Ok` exactly when `N > 0`, `c ≠ 0`,
`omega^N = 1`, and `omega^(N/p) ≠ 1` for every prime divisor `p` of `N`; when
a condition fails it returns the corresponding `DomainError` (`NZero`,
`ZhZero`, `OmegaNPowNotOne`, or `OmegaNotPrimitive p` for a witnessing prime
divisor `p`), and no domain is produced. -/
theorem c10_domain_validation {F : Type} [Field F] [DecidableEq F]
    (n : Nat) (omega zh_c : F) :
    ((∃ d, new_with_c_r n omega zh_c = Except.ok d) ↔
      (0 < n ∧ zh_c ≠ 0 ∧ omega ^ n = 1 ∧
        ∀ p, Nat.Prime p → p ∣ n → omega ^ (n / p) ≠ 1)) ∧
    ((0 < n ∧ zh_c ≠ 0 ∧ omega ^ n = 1 ∧
        ∀ p, Nat.Prime p → p ∣ n → omega ^ (n / p) ≠ 1) →
      new_with_c_r n omega zh_c = Except.ok ⟨n, omega, zh_c⟩) ∧
    (n = 0 → new_with_c_r n omega zh_c = Except.error DomainError.NZero) ∧
    (0 < n → zh_c = 0 → new_with_c_r n omega zh_c = Except.error DomainError.ZhZero) ∧
    (0 < n → zh_c ≠ 0 → omega ^ n ≠ 1 →
      new_with_c_r n omega zh_c = Except.error DomainError.OmegaNPowNotOne) ∧
    (0 < n → zh_c ≠ 0 → omega ^ n = 1 →
      (∃ p, Nat.Prime p ∧ p ∣ n ∧ omega ^ (n / p) = 1) →
      ∃ p, Nat.Prime p ∧ p ∣ n ∧ omega ^ (n / p) = 1 ∧
        new_with_c_r n omega zh_c = Except.error (DomainError.OmegaNotPrimitive p)) := by
  have hvalid : ∀ (hn : ¬ n = 0) (hc : ¬ zh_c = 0) (hw : omega ^ n = 1),
      validate_domain_r (⟨n, omega, zh_c⟩ : DomainS F) =
        checkPrimitive omega n (prime_factors n) := by
    intro hn hc hw
    rw [validate_domain_r]
    simp only [if_neg hn, if_neg hc]
    rw [if_neg (by simpa [pow_u64_eq] using hw)]
  have hok_iff : ∀ e, (new_with_c_r n omega zh_c = Except.ok e ↔
      (validate_domain_r (⟨n, omega, zh_c⟩ : DomainS F) = Except.ok () ∧
        e = ⟨n, omega, zh_c⟩)) := by
    intro e
    rw [new_with_c_r]
    cases hval : validate_domain_r (⟨n, omega, zh_c⟩ : DomainS F) with
    | error err => simp
    | ok u =>
      cases u
      simp [eq_comm]
  have herr_iff : ∀ err, (new_with_c_r n omega zh_c = Except.error err ↔
      validate_domain_r (⟨n, omega, zh_c⟩ : DomainS F) = Except.error err) := by
    intro err
    rw [new_with_c_r]
    cases hval : validate_domain_r (⟨n, omega, zh_c⟩ : DomainS F) with
    | error e2 => simp
    | ok u => simp
  refine ⟨?_, ?_, ?_, ?_, ?_, ?_⟩
  · constructor
    · rintro ⟨d, hd⟩
      obtain ⟨hval, -⟩ := (hok_iff d).mp hd
      by_cases hn : n = 0
      · rw [validate_domain_r, if_pos hn] at hval
        exact absurd hval (by simp)
      · by_cases hc : zh_c = 0
        · rw [validate_domain_r, if_neg hn, if_pos hc] at hval
          exact absurd hval (by simp)
        · by_cases hw : omega ^ n = 1
          · rw [hvalid hn hc hw] at hval
            refine ⟨by omega, hc, hw, ?_⟩
            intro p hp hpd
            exact (checkPrimitive_ok_iff omega n (prime_factors n)).mp hval p
              ((prime_factors_mem n (by omega) p).mpr ⟨hp, hpd⟩)
          · rw [validate_domain_r, if_neg hn, if_neg hc,
              if_pos (by simpa [pow_u64_eq] using hw)] at hval
            exact absurd hval (by simp)
    · rintro ⟨hn, hc, hw, hprim⟩
      refine ⟨⟨n, omega, zh_c⟩, ?_⟩
      rw [(hok_iff _)]
      refine ⟨?_, rfl⟩
      rw [hvalid (by omega) hc hw]
      rw [checkPrimitive_ok_iff]
      intro p hp
      obtain ⟨hpp, hpd⟩ := (prime_factors_mem n (by omega) p).mp hp
      exact hprim p hpp hpd
  · rintro ⟨hn, hc, hw, hprim⟩
    rw [new_with_c_r]
    have hval : validate_domain_r (⟨n, omega, zh_c⟩ : DomainS F) = Except.ok () := by
      rw [hvalid (by omega) hc hw, checkPrimitive_ok_iff]
      intro p hp
      obtain ⟨hpp, hpd⟩ := (prime_factors_mem n (by omega) p).mp hp
      exact hprim p hpp hpd
    rw [hval]
  · intro hn
    rw [herr_iff, validate_domain_r, if_pos hn]
  · intro hn hc
    rw [herr_iff, validate_domain_r, if_neg (by change ¬ n = 0; omega), if_pos hc]
  · intro hn hc hw
    rw [herr_iff, validate_domain_r, if_neg (by change ¬ n = 0; omega), if_neg hc,
      if_pos (by simpa [pow_u64_eq] using hw)]
  · intro hn hc hw hex
    obtain ⟨p, hpp, hpd, hpe⟩ := hex
    have hmem : p ∈ prime_factors n := (prime_factors_mem n (by omega) p).mpr ⟨hpp, hpd⟩
    obtain ⟨q, hqm, hqe, hqc⟩ := checkPrimitive_error omega n (prime_factors n) ⟨p, hmem, hpe⟩
    obtain ⟨hqp, hqd⟩ := (prime_factors_mem n (by omega) q).mp hqm
    refine ⟨q, hqp, hqd, hqe, ?_⟩
    rw [herr_iff, hvalid (by omega) hc hw]
    exact hqc

/-- Witness for C10 at a concrete valid domain: `N = 4`, `omega = 10`,
`c = 1` over `ZMod 101` (`10` has multiplicative order 4). -/
theorem c10_domain_validation_witness :
    (0 < 4 ∧ (1 : ZMod 101) ≠ 0 ∧ (10 : ZMod 101) ^ 4 = 1 ∧
      ∀ p, Nat.Prime p → p ∣ 4 → (10 : ZMod 101) ^ (4 / p) ≠ 1) ∧
    new_with_c_r 4 (10 : ZMod 101) 1 = Except.ok ⟨4, 10, 1⟩ := by
  have hcond : 0 < 4 ∧ (1 : ZMod 101) ≠ 0 ∧ (10 : ZMod 101) ^ 4 = 1 ∧
      ∀ p, Nat.Prime p → p ∣ 4 → (10 : ZMod 101) ^ (4 / p) ≠ 1 := by
    refine ⟨by decide, by decide, by decide, ?_⟩
    intro p hp hpd
    have hp2 : p = 2 := by
      have hdvd2 : p ∣ 2 ^ 2 := by simpa using hpd
      have := Nat.Prime.dvd_of_dvd_pow hp hdvd2
      exact (Nat.prime_dvd_prime_iff_eq hp Nat.prime_two).mp this
    rw [hp2]
    decide
  exact ⟨hcond, (c10_domain_validation 4 (10 : ZMod 101) 1).2.1 hcond⟩

-- ===========================================================================
-- NTT / INTT embedding (domain.rs::ntt_in_place, intt_in_place,
-- ifft_block_evals_to_coeffs_r, ntt_block_coeffs_to_evals_r)
-- ===========================================================================

section Ntt

variable {F : Type} [Field F] [DecidableEq F]

/-- Inner `while j & bit != 0 { j ^= bit; bit >>= 1 }; j ^= bit` of the
bit-reversal loop in `ntt_in_place`. -/
def brInner (j bit : Nat) : Nat :=
  if j &&& bit ≠ 0 then brInner (j ^^^ bit) (bit / 2) else j ^^^ bit
termination_by bit
decreasing_by
  refine Nat.div_lt_self (Nat.pos_of_ne_zero ?_) (by omega)
  intro hcon
  subst hcon
  simp_all

/-- Model of `slice::swap(i, j)` on lists (indices are in bounds at every
reachable call). -/
def listSwap (a : List F) (i j : Nat) : List F :=
  let ai := a.getD i 0
  let aj := a.getD j 0
  (a.set i aj).set j ai

/-- The `for i in 1..n` bit-reversal permutation loop of `ntt_in_place`,
threading the incremental reversed counter `j`. -/
def bitrevGo (n : Nat) : Nat → Nat → List F → List F
  | i, j, a =>
    if i < n then
      bitrevGo n (i + 1) (brInner j (n / 2))
        (if i < brInner j (n / 2) then listSwap a i (brInner j (n / 2)) else a)
    else a
termination_by i _ _ => n - i

/-- Bit-reversal permutation pass of `ntt_in_place` (loop from `i = 1`,
`j = 0`). -/
def bit_reversal (n : Nat) (a : List F) : List F := bitrevGo n 1 0 a

/-- Innermost butterfly loop of `ntt_in_place` (for `i in 0..len/2`):
`u = a[start+i]`, `v = a[start+i+half] * w`, write `u+v` and `u-v`,
`w *= w_len`. -/
def ctButterflyGo (wlen : F) (start half : Nat) : Nat → F → List F → List F
  | i, w, a =>
    if i < half then
      ctButterflyGo wlen start half (i + 1) (w * wlen)
        ((a.set (start + i) (a.getD (start + i) 0 + a.getD (start + i + half) 0 * w)).set
          (start + i + half) (a.getD (start + i) 0 - a.getD (start + i + half) 0 * w))
    else a
termination_by i _ _ => half - i

/-- One stage of `ntt_in_place` (the `for start in (0..n).step_by(len)` loop,
with `ceil(n/len)` aligned blocks). -/
def ctStage (n len : Nat) (wlen : F) (a : List F) : List F :=
  (List.range ((n + len - 1) / len)).foldl
    (fun acc k => ctButterflyGo wlen (k * len) (len / 2) 0 1 acc) a

/-- The `while len <= n { .. len <<= 1 }` stage loop of `ntt_in_place` with
`w_len = root^(n/len)`.  (The extra `2 ≤ len` guard only rules out the
unreachable degenerate arguments `len ∈ {0,1}`; the loop is entered at
`len = 2` and doubles.) -/
def ctStagesGo (n : Nat) (root : F) (len : Nat) (a : List F) : List F :=
  if h : 2 ≤ len ∧ len ≤ n then
    ctStagesGo n root (len * 2) (ctStage n len (pow_u64 root (n / len)) a)
  else a
termination_by n + 1 - len
decreasing_by omega

/-- Embedding of `domain.rs::ntt_in_place`: bit-reversal, then Cooley-Tukey
stages. -/
def ntt_in_place (a : List F) (root : F) : List F :=
  ctStagesGo a.length root 2 (bit_reversal a.length a)

/-- Embedding of `domain.rs::intt_in_place`: forward transform with the
inverse root, then scale by `n⁻¹`.  (The source panics when `root = 0` or
`(n : F) = 0`; those cases are unreachable from validated domains and the
embedding totalises them with the junk value `0⁻¹ = 0`.) -/
def intt_in_place (a : List F) (root : F) : List F :=
  (ntt_in_place a root⁻¹).map (fun x => x * ((a.length : F))⁻¹)

/-- Model of `usize::is_power_of_two` from the Rust standard library. -/
def is_power_of_two : Nat → Bool
  | 0 => false
  | 1 => true
  | m + 2 => decide ((m + 2) % 2 = 0) && is_power_of_two ((m + 2) / 2)
decreasing_by omega

/-- Embedding of `domain.rs::validate_len_r`: full domain validation plus
`len > 0`, `len` a power of two, and `n % len = 0`. -/
def validate_len_r (d : DomainS F) (len : Nat) : Except DomainError Unit :=
  match validate_domain_r d with
  | Except.error e => Except.error e
  | Except.ok _ =>
      if ¬ (0 < len ∧ is_power_of_two len = true ∧ d.n % len = 0) then
        Except.error (DomainError.BadLen len d.n)
      else Except.ok ()

/-- Embedding of `domain.rs::primitive_len_root_r`:
`omega^(n/len)` after length validation. -/
def primitive_len_root_r (d : DomainS F) (len : Nat) : Except DomainError F :=
  match validate_len_r d len with
  | Except.error e => Except.error e
  | Except.ok _ => Except.ok (pow_u64 d.omega (d.n / len))

/-- Embedding of `domain.rs::ifft_block_evals_to_coeffs_r` (the source calls
`primitive_len_root_r` twice with identical results; the embedding calls it
once). -/
def ifft_block_evals_to_coeffs_r (d : DomainS F) (evals : List F) :
    Except DomainError (List F) :=
  match primitive_len_root_r d evals.length with
  | Except.error e => Except.error e
  | Except.ok root => Except.ok (intt_in_place evals root)

/-- Embedding of `domain.rs::ntt_block_coeffs_to_evals_r`. -/
def ntt_block_coeffs_to_evals_r (d : DomainS F) (coeffs : List F) :
    Except DomainError (List F) :=
  match primitive_len_root_r d coeffs.length with
  | Except.error e => Except.error e
  | Except.ok root => Except.ok (ntt_in_place coeffs root)

end Ntt

section NttLength

variable {F : Type} [Field F] [DecidableEq F]

theorem listSwap_length (a : List F) (i j : Nat) : (listSwap a i j).length = a.length := by
  rw [listSwap]
  simp [List.length_set]

theorem bitrevGo_length_fuel (n : Nat) :
    ∀ (k i j : Nat) (a : List F), n - i ≤ k → (bitrevGo n i j a).length = a.length := by
  intro k
  induction k with
  | zero =>
    intro i j a hk
    rw [bitrevGo, if_neg (by omega)]
  | succ k ih =>
    intro i j a hk
    by_cases hlt : i < n
    · rw [bitrevGo, if_pos hlt, ih (i + 1) _ _ (by omega)]
      split <;> simp [listSwap_length]
    · rw [bitrevGo, if_neg hlt]

theorem bitrevGo_length (n : Nat) (i j : Nat) (a : List F) :
    (bitrevGo n i j a).length = a.length :=
  bitrevGo_length_fuel n (n - i) i j a le_rfl

theorem ctButterflyGo_length_fuel (wlen : F) (start half : Nat) :
    ∀ (k i : Nat) (w : F) (a : List F), half - i ≤ k →
      (ctButterflyGo wlen start half i w a).length = a.length := by
  intro k
  induction k with
  | zero =>
    intro i w a hk
    rw [ctButterflyGo, if_neg (by omega)]
  | succ k ih =>
    intro i w a hk
    by_cases hlt : i < half
    · rw [ctButterflyGo, if_pos hlt, ih (i + 1) _ _ (by omega)]
      simp [List.length_set]
    · rw [ctButterflyGo, if_neg hlt]

theorem ctButterflyGo_length (wlen : F) (start half i : Nat) (w : F) (a : List F) :
    (ctButterflyGo wlen start half i w a).length = a.length :=
  ctButterflyGo_length_fuel wlen start half (half - i) i w a le_rfl

theorem ctStage_length (n len : Nat) (wlen : F) (a : List F) :
    (ctStage n len wlen a).length = a.length := by
  rw [ctStage]
  generalize List.range ((n + len - 1) / len) = l
  induction l generalizing a with
  | nil => rfl
  | cons k t ih =>
    rw [List.foldl_cons, ih]
    rw [ctButterflyGo_length]

theorem ctStagesGo_length_fuel (n : Nat) (root : F) :
    ∀ (k len : Nat) (a : List F), n + 1 - len ≤ k →
      (ctStagesGo n root len a).length = a.length := by
  intro k
  induction k with
  | zero =>
    intro len a hk
    rw [ctStagesGo, dif_neg (by omega)]
  | succ k ih =>
    intro len a hk
    by_cases h : 2 ≤ len ∧ len ≤ n
    · rw [ctStagesGo, dif_pos h, ih (len * 2) _ (by omega), ctStage_length]
    · rw [ctStagesGo, dif_neg h]

theorem ctStagesGo_length (n : Nat) (root : F) (len : Nat) (a : List F) :
    (ctStagesGo n root len a).length = a.length :=
  ctStagesGo_length_fuel n root (n + 1 - len) len a le_rfl

theorem ntt_in_place_length (a : List F) (root : F) :
    (ntt_in_place a root).length = a.length := by
  rw [ntt_in_place, ctStagesGo_length, bit_reversal, bitrevGo_length]

theorem intt_in_place_length (a : List F) (root : F) :
    (intt_in_place a root).length = a.length := by
  rw [intt_in_place, List.length_map, ntt_in_place_length]

end NttLength

-- ===========================================================================
-- C8: correctness of the iterative NTT/INTT pair (domain.rs::ntt_in_place /
-- intt_in_place): the bit-reversal counter, the butterfly stages, the DFT
-- characterisation, and the round-trip on power-of-two lengths
-- ===========================================================================

section NttCorrectness

variable {F : Type} [Field F] [DecidableEq F]

theorem and_two_pow_of_lt (b x : Nat) (hx : x < 2 ^ b) : x &&& 2 ^ b = 0 := by
  apply Nat.eq_of_testBit_eq
  intro i
  rcases eq_or_ne i b with rfl | hib
  · simp [Nat.testBit_and, Nat.testBit_lt_two_pow hx]
  · simp [Nat.testBit_and, Nat.testBit_two_pow, (Ne.symm hib : b ≠ i)]

theorem xor_two_pow_of_lt (b x : Nat) (hx : x < 2 ^ b) : x ^^^ 2 ^ b = 2 ^ b + x := by
  have hp : (2 : Nat) ^ (b + 1) = 2 ^ b + 2 ^ b := by rw [pow_succ]; omega
  apply Nat.eq_of_testBit_eq
  intro i
  rcases Nat.lt_trichotomy i b with hib | rfl | hib
  · rw [Nat.testBit_xor, Nat.testBit_two_pow_add_gt hib, Nat.testBit_two_pow,
      decide_eq_false (by omega : ¬ b = i), Bool.xor_false]
  · rw [Nat.testBit_xor, Nat.testBit_two_pow_add_eq, Nat.testBit_two_pow,
      Nat.testBit_lt_two_pow hx]
    simp
  · have hbi : 2 ^ (b + 1) ≤ 2 ^ i := Nat.pow_le_pow_right (by omega) (by omega)
    have h2 : 2 ^ b + x < 2 ^ i := by omega
    rw [Nat.testBit_xor, Nat.testBit_lt_two_pow h2,
      Nat.testBit_lt_two_pow (show x < 2 ^ i by omega), Nat.testBit_two_pow,
      decide_eq_false (by omega : ¬ b = i), Bool.xor_false]

theorem and_two_pow_add (b x : Nat) (hx : x < 2 ^ b) :
    (2 ^ b + x) &&& 2 ^ b = 2 ^ b := by
  apply Nat.eq_of_testBit_eq
  intro i
  rcases eq_or_ne i b with rfl | hib
  · rw [Nat.testBit_and, Nat.testBit_two_pow_add_eq, Nat.testBit_lt_two_pow hx,
      Nat.testBit_two_pow]
    simp
  · rw [Nat.testBit_and, Nat.testBit_two_pow]
    simp [(show ¬ b = i from fun h => hib h.symm)]

theorem xor_two_pow_add (b x : Nat) (hx : x < 2 ^ b) :
    (2 ^ b + x) ^^^ 2 ^ b = x := by
  have hp : (2 : Nat) ^ (b + 1) = 2 ^ b + 2 ^ b := by rw [pow_succ]; omega
  apply Nat.eq_of_testBit_eq
  intro i
  rcases Nat.lt_trichotomy i b with hib | rfl | hib
  · rw [Nat.testBit_xor, Nat.testBit_two_pow_add_gt hib, Nat.testBit_two_pow,
      decide_eq_false (by omega : ¬ b = i), Bool.xor_false]
  · rw [Nat.testBit_xor, Nat.testBit_two_pow_add_eq, Nat.testBit_two_pow,
      Nat.testBit_lt_two_pow hx]
    simp
  · have hbi : 2 ^ (b + 1) ≤ 2 ^ i := Nat.pow_le_pow_right (by omega) (by omega)
    have h2 : 2 ^ b + x < 2 ^ i := by omega
    rw [Nat.testBit_xor, Nat.testBit_lt_two_pow h2, Nat.testBit_two_pow,
      Nat.testBit_lt_two_pow (show x < 2 ^ i by omega),
      decide_eq_false (by omega : ¬ b = i), Bool.xor_false]

/-- Mathematical bit-reversal of the low `r` bits of `v` (bit `i` of `v` moves
to bit `r - 1 - i`); the permutation the incremental counter of
`ntt_in_place`'s first loop realises. -/
def bitRev : Nat → Nat → Nat
  | 0, _ => 0
  | r + 1, v => 2 ^ r * (v % 2) + bitRev r (v / 2)

theorem bitRev_lt : ∀ r v, bitRev r v < 2 ^ r := by
  intro r
  induction r with
  | zero => intro v; simp [bitRev]
  | succ r ih =>
    intro v
    have h1 := ih (v / 2)
    have hp : (2 : Nat) ^ (r + 1) = 2 ^ r + 2 ^ r := by rw [pow_succ]; omega
    rcases Nat.mod_two_eq_zero_or_one v with h | h <;>
      simp [bitRev, h] <;> omega

theorem bitRev_zero (r : Nat) : bitRev r 0 = 0 := by
  induction r with
  | zero => simp [bitRev]
  | succ r ih => simp [bitRev, ih]

theorem bitRev_two_mul (r t : Nat) : bitRev (r + 1) (2 * t) = bitRev r t := by
  rw [bitRev]
  have h1 : 2 * t % 2 = 0 := by omega
  have h2 : 2 * t / 2 = t := by omega
  rw [h1, h2]
  simp

theorem bitRev_two_mul_add_one (r t : Nat) :
    bitRev (r + 1) (2 * t + 1) = 2 ^ r + bitRev r t := by
  rw [bitRev]
  have h1 : (2 * t + 1) % 2 = 1 := by omega
  have h2 : (2 * t + 1) / 2 = t := by omega
  rw [h1, h2]
  simp

theorem bitRev_succ_of_lt : ∀ r x, x < 2 ^ r → bitRev (r + 1) x = 2 * bitRev r x := by
  intro r
  induction r with
  | zero =>
    intro x hx
    interval_cases x
    simp [bitRev]
  | succ r ih =>
    intro x hx
    have hp : (2 : Nat) ^ (r + 1) = 2 ^ r + 2 ^ r := by rw [pow_succ]; omega
    have hx2 : x / 2 < 2 ^ r := by omega
    rw [show bitRev (r + 1 + 1) x = 2 ^ (r + 1) * (x % 2) + bitRev (r + 1) (x / 2)
        from rfl,
      ih (x / 2) hx2,
      show bitRev (r + 1) x = 2 ^ r * (x % 2) + bitRev r (x / 2) from rfl]
    rw [pow_succ]
    ring

theorem bitRev_two_pow_add : ∀ r w, w < 2 ^ r →
    bitRev (r + 1) (2 ^ r + w) = 2 * bitRev r w + 1 := by
  intro r
  induction r with
  | zero =>
    intro w hw
    interval_cases w
    simp [bitRev]
  | succ r ih =>
    intro w hw
    have hp : (2 : Nat) ^ (r + 1) = 2 ^ r + 2 ^ r := by rw [pow_succ]; omega
    have hmod : (2 ^ (r + 1) + w) % 2 = w % 2 := by omega
    have hdiv : (2 ^ (r + 1) + w) / 2 = 2 ^ r + w / 2 := by omega
    have hw2 : w / 2 < 2 ^ r := by omega
    rw [show bitRev (r + 1 + 1) (2 ^ (r + 1) + w) =
          2 ^ (r + 1) * ((2 ^ (r + 1) + w) % 2) +
            bitRev (r + 1) ((2 ^ (r + 1) + w) / 2) from rfl,
      hmod, hdiv, ih (w / 2) hw2,
      show bitRev (r + 1) w = 2 ^ r * (w % 2) + bitRev r (w / 2) from rfl]
    rw [pow_succ]
    ring

theorem bitRev_bitRev : ∀ r v, v < 2 ^ r → bitRev r (bitRev r v) = v := by
  intro r
  induction r with
  | zero =>
    intro v hv
    interval_cases v
    simp [bitRev]
  | succ r ih =>
    intro v hv
    have hp : (2 : Nat) ^ (r + 1) = 2 ^ r + 2 ^ r := by rw [pow_succ]; omega
    rcases Nat.mod_two_eq_zero_or_one v with h | h
    · have hv2 : v = 2 * (v / 2) := by omega
      have ht : v / 2 < 2 ^ r := by omega
      rw [hv2, bitRev_two_mul, bitRev_succ_of_lt r _ (bitRev_lt r (v / 2)),
        ih _ ht]
    · have hv2 : v = 2 * (v / 2) + 1 := by omega
      have ht : v / 2 < 2 ^ r := by omega
      rw [hv2, bitRev_two_mul_add_one, bitRev_two_pow_add r _ (bitRev_lt r (v / 2)),
        ih _ ht]

/-- The inner while-loop of the bit-reversal pass increments the reversed
counter: from `bitRev (r+1) t` it computes `bitRev (r+1) (t+1)`. -/
theorem brInner_bitRev : ∀ r t, t + 1 < 2 ^ (r + 1) →
    brInner (bitRev (r + 1) t) (2 ^ r) = bitRev (r + 1) (t + 1) := by
  intro r
  induction r with
  | zero =>
    intro t ht
    have ht0 : t = 0 := by omega
    subst ht0
    rw [bitRev_zero, brInner]
    norm_num
    rw [show bitRev 1 1 = 1 from rfl]
  | succ r ih =>
    intro t ht
    have hp : (2 : Nat) ^ (r + 2) = 2 ^ (r + 1) + 2 ^ (r + 1) := by
      rw [pow_succ]; omega
    rcases Nat.mod_two_eq_zero_or_one t with hpar | hpar
    · have hts : t = 2 * (t / 2) := by omega
      have hlt : bitRev (r + 1) (t / 2) < 2 ^ (r + 1) := bitRev_lt _ _
      rw [hts, bitRev_two_mul, brInner,
        if_neg (by simp [and_two_pow_of_lt (r + 1) _ hlt]),
        xor_two_pow_of_lt (r + 1) _ hlt,
        show 2 * (t / 2) + 1 = 2 * (t / 2) + 1 from rfl,
        bitRev_two_mul_add_one]
    · have hts : t = 2 * (t / 2) + 1 := by omega
      have hlt : bitRev (r + 1) (t / 2) < 2 ^ (r + 1) := bitRev_lt _ _
      have hstep : t / 2 + 1 < 2 ^ (r + 1) := by omega
      rw [hts, bitRev_two_mul_add_one, brInner,
        if_pos (by rw [and_two_pow_add (r + 1) _ hlt]; positivity),
        xor_two_pow_add (r + 1) _ hlt,
        show (2 : Nat) ^ (r + 1) / 2 = 2 ^ r by omega,
        ih (t / 2) hstep,
        show 2 * (t / 2) + 1 + 1 = 2 * (t / 2 + 1) from by ring,
        bitRev_two_mul]

theorem listSwap_getD (a : List F) (i j p : Nat) (hi : i < a.length)
    (hj : j < a.length) :
    (listSwap a i j).getD p 0 =
      if p = j then a.getD i 0 else if p = i then a.getD j 0
      else a.getD p 0 := by
  rw [listSwap]
  rw [getD_set_general, getD_set_general, List.length_set]
  by_cases h1 : p = j
  · rw [if_pos ⟨h1.symm, hj⟩, if_pos h1]
  · rw [if_neg (by intro hcon; exact h1 hcon.1.symm), if_neg h1]
    by_cases h2 : p = i
    · rw [if_pos ⟨h2.symm, hi⟩, if_pos h2]
    · rw [if_neg (by intro hcon; exact h2 hcon.1.symm), if_neg h2]

/-- Invariant-carrying correctness of the bit-reversal swap loop: starting at
index `i` with the reversed counter `bitRev k (i-1)`, if every pair whose
smaller index is below `i` has already been swapped, the loop finishes the
permutation: position `p` ends with the original entry at `bitRev k p`. -/
theorem bitrevGo_spec (k : Nat) (a0 : List F) :
    ∀ fuel i (a : List F), 2 ^ k - i ≤ fuel → 1 ≤ i → i ≤ 2 ^ k →
      a.length = 2 ^ k →
      (∀ q, q < 2 ^ k →
        a.getD q 0 = if min q (bitRev k q) < i then a0.getD (bitRev k q) 0
          else a0.getD q 0) →
      ∀ p, p < 2 ^ k →
        (bitrevGo (2 ^ k) i (bitRev k (i - 1)) a).getD p 0 =
          a0.getD (bitRev k p) 0 := by
  intro fuel
  induction fuel with
  | zero =>
    intro i a hfuel h1 h2 ha hinv p hp
    rw [bitrevGo, if_neg (by omega)]
    have hq := hinv p hp
    have hmin : min p (bitRev k p) < i := by omega
    rw [if_pos hmin] at hq
    exact hq
  | succ fuel ih =>
    intro i a hfuel h1 h2 ha hinv p hp
    by_cases hi : i < 2 ^ k
    · have hk1 : k ≠ 0 := by
        rintro rfl
        norm_num at hi
        omega
      obtain ⟨r, rfl⟩ : ∃ r, k = r + 1 := ⟨k - 1, by omega⟩
      have hdiv : (2 : Nat) ^ (r + 1) / 2 = 2 ^ r := by
        have hps : (2 : Nat) ^ (r + 1) = 2 ^ r * 2 := pow_succ 2 r
        omega
      have hbr : brInner (bitRev (r + 1) (i - 1)) (2 ^ r) = bitRev (r + 1) i := by
        have h := brInner_bitRev r (i - 1) (by omega)
        rwa [show i - 1 + 1 = i by omega] at h
      rw [bitrevGo, if_pos hi, hdiv, hbr]
      have hfi_lt : bitRev (r + 1) i < 2 ^ (r + 1) := bitRev_lt _ _
      have hffi : bitRev (r + 1) (bitRev (r + 1) i) = i :=
        bitRev_bitRev _ i (by omega)
      have ha' : (if i < bitRev (r + 1) i then
          listSwap a i (bitRev (r + 1) i) else a).length = 2 ^ (r + 1) := by
        by_cases h : i < bitRev (r + 1) i <;> simp [h, listSwap_length, ha]
      have hinv' : ∀ q, q < 2 ^ (r + 1) →
          (if i < bitRev (r + 1) i then
            listSwap a i (bitRev (r + 1) i) else a).getD q 0 =
          if min q (bitRev (r + 1) q) < i + 1 then a0.getD (bitRev (r + 1) q) 0
          else a0.getD q 0 := by
        intro q hq
        have hfq_lt : bitRev (r + 1) q < 2 ^ (r + 1) := bitRev_lt _ _
        have hffq : bitRev (r + 1) (bitRev (r + 1) q) = q := bitRev_bitRev _ q hq
        by_cases hswap : i < bitRev (r + 1) i
        · rw [if_pos hswap, listSwap_getD a i _ q (by omega) (by omega)]
          by_cases hq1 : q = bitRev (r + 1) i
          · rw [if_pos hq1]
            have hfq : bitRev (r + 1) q = i := by rw [hq1, hffi]
            have h1i := hinv i (by omega)
            rw [if_neg (by omega)] at h1i
            rw [h1i, hfq, if_pos (by omega)]
          · rw [if_neg hq1]
            by_cases hq2 : q = i
            · rw [if_pos hq2]
              have h1f := hinv (bitRev (r + 1) i) (by omega)
              rw [hffi, if_neg (by omega)] at h1f
              rw [h1f]
              subst hq2
              rw [if_pos (by omega)]
            · rw [if_neg hq2, hinv q hq]
              have hne : min q (bitRev (r + 1) q) ≠ i := by
                intro hcon
                rcases (by omega : q = i ∨ bitRev (r + 1) q = i) with h | h
                · exact hq2 h
                · apply hq1
                  rw [← h, hffq]
              by_cases hc : min q (bitRev (r + 1) q) < i
              · rw [if_pos hc, if_pos (by omega)]
              · rw [if_neg hc, if_neg (by omega)]
        · rw [if_neg hswap, hinv q hq]
          by_cases hc : min q (bitRev (r + 1) q) < i
          · rw [if_pos hc, if_pos (by omega)]
          · by_cases hc2 : min q (bitRev (r + 1) q) < i + 1
            · rw [if_neg hc, if_pos hc2]
              have hqi : bitRev (r + 1) q = q := by
                rcases (by omega : q = i ∨ bitRev (r + 1) q = i) with h | h
                · subst h
                  omega
                · have hpfi : bitRev (r + 1) i = q := by rw [← h, hffq]
                  omega
              rw [hqi]
            · rw [if_neg hc, if_neg hc2]
      have hres := ih (i + 1)
        (if i < bitRev (r + 1) i then listSwap a i (bitRev (r + 1) i) else a)
        (by omega) (by omega) (by omega) ha' hinv' p hp
      rwa [show i + 1 - 1 = i from rfl] at hres
    · rw [bitrevGo, if_neg hi]
      have hq := hinv p hp
      have hmin : min p (bitRev k p) < i := by omega
      rw [if_pos hmin] at hq
      exact hq

/-- The bit-reversal pass of `ntt_in_place` permutes the list by `bitRev k`. -/
theorem bit_reversal_spec (k : Nat) (a : List F) (ha : a.length = 2 ^ k) :
    ∀ p, p < 2 ^ k → (bit_reversal (2 ^ k) a).getD p 0 = a.getD (bitRev k p) 0 := by
  intro p hp
  rw [bit_reversal]
  have hstart : ∀ q, q < 2 ^ k →
      a.getD q 0 = if min q (bitRev k q) < 1 then a.getD (bitRev k q) 0
        else a.getD q 0 := by
    intro q hq
    by_cases h : min q (bitRev k q) < 1
    · have hffq : bitRev k (bitRev k q) = q := bitRev_bitRev _ q hq
      have hq0 : q = 0 := by
        rcases (by omega : q = 0 ∨ bitRev k q = 0) with h0 | h0
        · exact h0
        · rw [← hffq, h0, bitRev_zero]
      subst hq0
      rw [if_pos h, bitRev_zero]
    · rw [if_neg h]
  have hres := bitrevGo_spec k a (2 ^ k - 1) 1 a (le_rfl)
    (le_rfl) (Nat.one_le_two_pow) ha hstart p hp
  rwa [show (1 : Nat) - 1 = 0 from rfl, bitRev_zero] at hres

/-- Pointwise effect of the innermost butterfly loop of `ntt_in_place`,
generalised over the running index `i` and twiddle accumulator `w`. -/
theorem ctButterflyGo_getD (wlen : F) (start half : Nat) :
    ∀ fuel i (w : F) (a : List F), half - i ≤ fuel → start + 2 * half ≤ a.length →
      ∀ p,
      (ctButterflyGo wlen start half i w a).getD p 0 =
        if start + i ≤ p ∧ p < start + half then
          a.getD p 0 + a.getD (p + half) 0 * (w * wlen ^ (p - (start + i)))
        else if start + half + i ≤ p ∧ p < start + 2 * half then
          a.getD (p - half) 0 - a.getD p 0 * (w * wlen ^ (p - (start + half + i)))
        else a.getD p 0 := by
  intro fuel
  induction fuel with
  | zero =>
    intro i w a hfuel hlen p
    rw [ctButterflyGo, if_neg (by omega), if_neg (by omega), if_neg (by omega)]
  | succ fuel ih =>
    intro i w a hfuel hlen p
    by_cases hi : i < half
    · rw [ctButterflyGo, if_pos hi]
      have hIH := ih (i + 1) (w * wlen)
        ((a.set (start + i)
            (a.getD (start + i) 0 + a.getD (start + i + half) 0 * w)).set
          (start + i + half)
          (a.getD (start + i) 0 - a.getD (start + i + half) 0 * w))
        (by omega) (by simp only [List.length_set]; omega) p
      rw [hIH]
      have ha'q : ∀ q,
          ((a.set (start + i)
              (a.getD (start + i) 0 + a.getD (start + i + half) 0 * w)).set
            (start + i + half)
            (a.getD (start + i) 0 - a.getD (start + i + half) 0 * w)).getD q 0 =
          if q = start + i + half then
            a.getD (start + i) 0 - a.getD (start + i + half) 0 * w
          else if q = start + i then
            a.getD (start + i) 0 + a.getD (start + i + half) 0 * w
          else a.getD q 0 := by
        intro q
        rw [getD_set_general, getD_set_general, List.length_set]
        by_cases h1 : q = start + i + half
        · rw [if_pos ⟨h1.symm, by omega⟩, if_pos h1]
        · rw [if_neg (fun hcon => h1 hcon.1.symm), if_neg h1]
          by_cases h2 : q = start + i
          · rw [if_pos ⟨h2.symm, by omega⟩, if_pos h2]
          · rw [if_neg (fun hcon => h2 hcon.1.symm), if_neg h2]
      by_cases hz1 : start + i ≤ p ∧ p < start + half
      · rw [if_pos hz1]
        by_cases hp0 : p = start + i
        · rw [if_neg (by omega), if_neg (by omega), ha'q,
            if_neg (by omega), if_pos hp0, hp0,
            show start + i - (start + i) = 0 by omega, pow_zero, mul_one]
        · rw [if_pos (by omega : start + (i + 1) ≤ p ∧ p < start + half),
            ha'q, if_neg (by omega), if_neg (by omega),
            ha'q, if_neg (by omega), if_neg (by omega),
            show p - (start + i) = p - (start + (i + 1)) + 1 by omega, pow_succ]
          ring
      · rw [if_neg hz1]
        by_cases hz2 : start + half + i ≤ p ∧ p < start + 2 * half
        · rw [if_pos hz2]
          by_cases hp0 : p = start + half + i
          · rw [if_neg (by omega), if_neg (by omega), ha'q,
              if_pos (by omega), hp0,
              show start + half + i - half = start + i by omega,
              show start + half + i - (start + half + i) = 0 by omega,
              pow_zero, mul_one,
              show start + half + i = start + i + half by omega]
          · rw [if_neg (by omega),
              if_pos (by omega : start + half + (i + 1) ≤ p ∧ p < start + 2 * half),
              ha'q, if_neg (by omega), if_neg (by omega),
              ha'q, if_neg (by omega), if_neg (by omega),
              show p - (start + half + i) = p - (start + half + (i + 1)) + 1 by
                omega,
              pow_succ]
            ring
        · rw [if_neg hz2, if_neg (by omega), if_neg (by omega), ha'q,
            if_neg (by omega), if_neg (by omega)]
    · rw [ctButterflyGo, if_neg hi, if_neg (by omega), if_neg (by omega)]

/-- The butterfly loop from `i = 0`, `w = 1` (the form `ctStage` invokes). -/
theorem ctButterflyGo_run (wlen : F) (start half : Nat) (b : List F)
    (hlen : start + 2 * half ≤ b.length) (p : Nat) :
    (ctButterflyGo wlen start half 0 1 b).getD p 0 =
      if start ≤ p ∧ p < start + half then
        b.getD p 0 + b.getD (p + half) 0 * wlen ^ (p - start)
      else if start + half ≤ p ∧ p < start + 2 * half then
        b.getD (p - half) 0 - b.getD p 0 * wlen ^ (p - (start + half))
      else b.getD p 0 := by
  have h := ctButterflyGo_getD wlen start half half 0 1 b (by omega) hlen p
  simpa only [Nat.add_zero, one_mul] using h

theorem foldl_butterfly_length (len : Nat) (wlen : F) :
    ∀ (m : Nat) (a : List F),
      ((List.range m).foldl
        (fun acc t => ctButterflyGo wlen (t * len) (len / 2) 0 1 acc) a).length =
        a.length := by
  intro m
  induction m with
  | zero => intro a; simp
  | succ m ih =>
    intro a
    rw [List.range_succ, List.foldl_append, List.foldl_cons, List.foldl_nil,
      ctButterflyGo_length, ih]

/-- Processing the first `m` aligned blocks of a stage butterflies exactly the
positions below `m * len` and leaves the rest untouched. -/
theorem ctStage_blocks (len : Nat) (wlen : F) (hlen2 : 2 ≤ len)
    (hev : len % 2 = 0) :
    ∀ (m : Nat) (a : List F), m * len ≤ a.length → ∀ p,
      ((List.range m).foldl
        (fun acc t => ctButterflyGo wlen (t * len) (len / 2) 0 1 acc) a).getD p 0 =
      if p < m * len then
        (if p % len < len / 2 then
          a.getD p 0 + a.getD (p + len / 2) 0 * wlen ^ (p % len)
         else a.getD (p - len / 2) 0 - a.getD p 0 * wlen ^ (p % len - len / 2))
      else a.getD p 0 := by
  intro m
  induction m with
  | zero =>
    intro a hm p
    rw [List.range_zero, List.foldl_nil, if_neg (by omega)]
  | succ m ih =>
    intro a hm p
    have hmm : m * len + len = (m + 1) * len := by
      rw [Nat.add_mul, Nat.one_mul]
    have hm' : m * len ≤ a.length := by omega
    rw [List.range_succ, List.foldl_append, List.foldl_cons, List.foldl_nil]
    have hrun := ctButterflyGo_run wlen (m * len) (len / 2)
      ((List.range m).foldl
        (fun acc t => ctButterflyGo wlen (t * len) (len / 2) 0 1 acc) a)
      (by rw [foldl_butterfly_length]; omega) p
    rw [hrun]
    by_cases hz1 : m * len ≤ p ∧ p < m * len + len / 2
    · rw [if_pos hz1, ih a hm' p, if_neg (by omega), ih a hm' (p + len / 2),
        if_neg (by omega), if_pos (by omega)]
      have humod : p % len = p - m * len := by
        conv_lhs => rw [show p = (p - m * len) + m * len by omega]
        rw [Nat.add_mul_mod_self_right, Nat.mod_eq_of_lt (by omega)]
      rw [humod, if_pos (by omega)]
    · by_cases hz2 : m * len + len / 2 ≤ p ∧ p < m * len + len
      · rw [if_neg hz1, if_pos (by omega : m * len + len / 2 ≤ p ∧
          p < m * len + 2 * (len / 2)), ih a hm' (p - len / 2),
          if_neg (by omega), ih a hm' p, if_neg (by omega), if_pos (by omega)]
        have humod : p % len = p - m * len := by
          conv_lhs => rw [show p = (p - m * len) + m * len by omega]
          rw [Nat.add_mul_mod_self_right, Nat.mod_eq_of_lt (by omega)]
        rw [humod, if_neg (by omega),
          show p - (m * len + len / 2) = p - m * len - len / 2 by omega]
      · rw [if_neg hz1, if_neg (by omega), ih a hm' p]
        by_cases hp1 : p < m * len
        · rw [if_pos hp1, if_pos (show p < (m + 1) * len by omega)]
        · rw [if_neg hp1, if_neg (show ¬ p < (m + 1) * len by omega)]

/-- Pointwise effect of one full Cooley-Tukey stage on an array whose length
`n` is a multiple of the (even) stage width `len`. -/
theorem ctStage_getD (n len : Nat) (wlen : F) (a : List F) (ha : a.length = n)
    (hdvd : len ∣ n) (hlen2 : 2 ≤ len) (hev : len % 2 = 0) :
    ∀ p, (ctStage n len wlen a).getD p 0 =
      if p < n then
        (if p % len < len / 2 then
          a.getD p 0 + a.getD (p + len / 2) 0 * wlen ^ (p % len)
         else a.getD (p - len / 2) 0 - a.getD p 0 * wlen ^ (p % len - len / 2))
      else a.getD p 0 := by
  intro p
  rcases hdvd with ⟨q, hq⟩
  have hcomm : len * q = q * len := Nat.mul_comm len q
  have hq1 : (n + len - 1) / len = q := by
    rw [hq, show len * q + len - 1 = (len - 1) + q * len by omega,
      Nat.add_mul_div_right _ _ (by omega : 0 < len),
      Nat.div_eq_of_lt (by omega), Nat.zero_add]
  have hq2 : q * len = n := by omega
  rw [ctStage, hq1]
  have hres := ctStage_blocks len wlen hlen2 hev q a (by omega) p
  rw [hq2] at hres
  exact hres

theorem sum_range_even_odd (m : Nat) (f : Nat → F) :
    ∑ v ∈ Finset.range (2 * m), f v =
      (∑ v ∈ Finset.range m, f (2 * v)) + ∑ v ∈ Finset.range m, f (2 * v + 1) := by
  induction m with
  | zero => simp
  | succ m ih =>
    rw [show 2 * (m + 1) = 2 * m + 1 + 1 by omega, Finset.sum_range_succ,
      Finset.sum_range_succ, ih, Finset.sum_range_succ, Finset.sum_range_succ]
    ring

theorem root_pow_split (x : F) (A B C D v : Nat) (hA : x ^ A = 1)
    (hB : x ^ B = -1) :
    x ^ (A * v + (B + (C + D))) = -(x ^ C * x ^ D) := by
  rw [pow_add, pow_add, pow_add, pow_mul, hA, hB, one_pow]
  ring

/-- One Cooley-Tukey stage refines the invariant: if before the stage each
half-block of width `2^s` holds the order-`2^s` DFT of its stride-decimated
subsequence, afterwards each block of width `2^(s+1)` holds the order-`2^(s+1)`
DFT of the corresponding subsequence. -/
theorem nttStage_step (s R : Nat) (root : F) (a0 c : List F)
    (hc : c.length = 2 ^ (s + R + 1))
    (h1 : root ^ 2 ^ (s + R + 1) = 1) (hm : root ^ 2 ^ (s + R) = -1)
    (hinv : ∀ q, q < 2 ^ (s + R + 1) → c.getD q 0 =
      ∑ v ∈ Finset.range (2 ^ s),
        a0.getD (v * 2 ^ (R + 1) + bitRev (R + 1) (q / 2 ^ s)) 0 *
          (root ^ 2 ^ (R + 1)) ^ (q % 2 ^ s * v)) :
    ∀ p, p < 2 ^ (s + R + 1) →
      (ctStage (2 ^ (s + R + 1)) (2 ^ (s + 1))
        (pow_u64 root (2 ^ (s + R + 1) / 2 ^ (s + 1))) c).getD p 0 =
      ∑ v ∈ Finset.range (2 ^ (s + 1)),
        a0.getD (v * 2 ^ R + bitRev R (p / 2 ^ (s + 1))) 0 *
          (root ^ 2 ^ R) ^ (p % 2 ^ (s + 1) * v) := by
  have hp1 : (2 : Nat) ^ (R + 1) = 2 ^ R * 2 := pow_succ 2 R
  have hp2 : (2 : Nat) ^ (s + 1) = 2 ^ s * 2 := pow_succ 2 s
  have hp3 : (2 : Nat) ^ (s + R + 1) = 2 ^ s * 2 ^ R * 2 := by
    rw [pow_succ, pow_add]
  have hp4 : (2 : Nat) ^ (s + R) = 2 ^ s * 2 ^ R := pow_add 2 s R
  have h2s : 0 < (2 : Nat) ^ s := by positivity
  have h2R : 0 < (2 : Nat) ^ R := by positivity
  have hwlen : pow_u64 root (2 ^ (s + R + 1) / 2 ^ (s + 1)) = root ^ 2 ^ R := by
    rw [pow_u64_eq, Nat.pow_div (by omega) (by norm_num),
      show s + R + 1 - (s + 1) = R by omega]
  have hhalf : (2 : Nat) ^ (s + 1) / 2 = 2 ^ s := by omega
  intro p hp
  have hdm := Nat.div_add_mod p (2 ^ (s + 1))
  have hprod : (2 : Nat) ^ (s + 1) * 2 ^ R = 2 ^ (s + R + 1) := by
    rw [← pow_add]
    congr 1
    omega
  have hT : p / 2 ^ (s + 1) < 2 ^ R := Nat.div_lt_of_lt_mul (by omega)
  have hblock : 2 ^ (s + 1) * (p / 2 ^ (s + 1)) + 2 ^ (s + 1) ≤ 2 ^ (s + R + 1) := by
    have h6 : 2 ^ (s + 1) * (p / 2 ^ (s + 1) + 1) ≤ 2 ^ (s + 1) * 2 ^ R :=
      Nat.mul_le_mul_left _ (by omega)
    rw [Nat.mul_add, Nat.mul_one] at h6
    omega
  have humod := Nat.mod_lt p (show 0 < (2 : Nat) ^ (s + 1) by positivity)
  rw [hwlen, ctStage_getD (2 ^ (s + R + 1)) (2 ^ (s + 1)) _ c hc
      (pow_dvd_pow 2 (by omega)) (by omega) (by omega) p,
    if_pos hp, hhalf,
    show Finset.range (2 ^ (s + 1)) = Finset.range (2 * 2 ^ s) from by
      rw [show (2 : Nat) ^ (s + 1) = 2 * 2 ^ s by omega],
    sum_range_even_odd]
  by_cases hc1 : p % 2 ^ (s + 1) < 2 ^ s
  · rw [if_pos hc1]
    have hpdecomp : p = p % 2 ^ (s + 1) + 2 * (p / 2 ^ (s + 1)) * 2 ^ s := by
      rw [show 2 * (p / 2 ^ (s + 1)) * 2 ^ s = 2 ^ (s + 1) * (p / 2 ^ (s + 1)) from by
        rw [hp2]; ring]
      omega
    have hp2decomp : p + 2 ^ s =
        p % 2 ^ (s + 1) + (2 * (p / 2 ^ (s + 1)) + 1) * 2 ^ s := by
      rw [show (2 * (p / 2 ^ (s + 1)) + 1) * 2 ^ s =
          2 ^ (s + 1) * (p / 2 ^ (s + 1)) + 2 ^ s from by rw [hp2]; ring]
      omega
    have hdiv_s : p / 2 ^ s = 2 * (p / 2 ^ (s + 1)) := by
      conv_lhs => rw [hpdecomp]
      rw [Nat.add_mul_div_right _ _ h2s, Nat.div_eq_of_lt hc1, Nat.zero_add]
    have hmod_s : p % 2 ^ s = p % 2 ^ (s + 1) := by
      conv_lhs => rw [hpdecomp]
      rw [Nat.add_mul_mod_self_right, Nat.mod_eq_of_lt hc1]
    have hdiv_s2 : (p + 2 ^ s) / 2 ^ s = 2 * (p / 2 ^ (s + 1)) + 1 := by
      conv_lhs => rw [hp2decomp]
      rw [Nat.add_mul_div_right _ _ h2s, Nat.div_eq_of_lt hc1, Nat.zero_add]
    have hmod_s2 : (p + 2 ^ s) % 2 ^ s = p % 2 ^ (s + 1) := by
      conv_lhs => rw [hp2decomp]
      rw [Nat.add_mul_mod_self_right, Nat.mod_eq_of_lt hc1]
    have hpll : p + 2 ^ s < 2 ^ (s + R + 1) := by omega
    rw [hinv p hp, hinv (p + 2 ^ s) hpll, hdiv_s, hmod_s, hdiv_s2, hmod_s2,
      bitRev_two_mul, bitRev_two_mul_add_one]
    congr 1
    · refine Finset.sum_congr rfl fun v hv => ?_
      rw [show v * 2 ^ (R + 1) = 2 * v * 2 ^ R from by rw [hp1]; ring]
      simp only [← pow_mul]
      congr 1
      rw [hp1]
      ring
    · rw [Finset.sum_mul]
      refine Finset.sum_congr rfl fun v hv => ?_
      rw [show (2 * v + 1) * 2 ^ R + bitRev R (p / 2 ^ (s + 1)) =
          v * 2 ^ (R + 1) + (2 ^ R + bitRev R (p / 2 ^ (s + 1))) from by
        rw [hp1]; ring,
        mul_assoc]
      congr 1
      simp only [← pow_mul, ← pow_add]
      congr 1
      rw [hp1]
      ring
  · rw [if_neg hc1]
    obtain ⟨w, hUe⟩ : ∃ w, p % 2 ^ (s + 1) = 2 ^ s + w :=
      ⟨p % 2 ^ (s + 1) - 2 ^ s, by omega⟩
    have hw_lt : w < 2 ^ s := by omega
    have hpdecomp : p = w + (2 * (p / 2 ^ (s + 1)) + 1) * 2 ^ s := by
      rw [show (2 * (p / 2 ^ (s + 1)) + 1) * 2 ^ s =
          2 ^ (s + 1) * (p / 2 ^ (s + 1)) + 2 ^ s from by rw [hp2]; ring]
      omega
    have hm2decomp : p - 2 ^ s = w + 2 * (p / 2 ^ (s + 1)) * 2 ^ s := by
      rw [show 2 * (p / 2 ^ (s + 1)) * 2 ^ s = 2 ^ (s + 1) * (p / 2 ^ (s + 1)) from by
        rw [hp2]; ring]
      omega
    have hdiv_s : p / 2 ^ s = 2 * (p / 2 ^ (s + 1)) + 1 := by
      conv_lhs => rw [hpdecomp]
      rw [Nat.add_mul_div_right _ _ h2s, Nat.div_eq_of_lt hw_lt, Nat.zero_add]
    have hmod_s : p % 2 ^ s = w := by
      conv_lhs => rw [hpdecomp]
      rw [Nat.add_mul_mod_self_right, Nat.mod_eq_of_lt hw_lt]
    have hdiv_s2 : (p - 2 ^ s) / 2 ^ s = 2 * (p / 2 ^ (s + 1)) := by
      conv_lhs => rw [hm2decomp]
      rw [Nat.add_mul_div_right _ _ h2s, Nat.div_eq_of_lt hw_lt, Nat.zero_add]
    have hmod_s2 : (p - 2 ^ s) % 2 ^ s = w := by
      conv_lhs => rw [hm2decomp]
      rw [Nat.add_mul_mod_self_right, Nat.mod_eq_of_lt hw_lt]
    have hmll : p - 2 ^ s < 2 ^ (s + R + 1) := by omega
    rw [hinv p hp, hinv (p - 2 ^ s) hmll, hdiv_s, hmod_s, hdiv_s2, hmod_s2,
      bitRev_two_mul, bitRev_two_mul_add_one, hUe,
      show 2 ^ s + w - 2 ^ s = w from by omega]
    have hEven : (∑ v ∈ Finset.range (2 ^ s),
        a0.getD (2 * v * 2 ^ R + bitRev R (p / 2 ^ (s + 1))) 0 *
          (root ^ 2 ^ R) ^ ((2 ^ s + w) * (2 * v))) =
        ∑ v ∈ Finset.range (2 ^ s),
          a0.getD (v * 2 ^ (R + 1) + bitRev R (p / 2 ^ (s + 1))) 0 *
            (root ^ 2 ^ (R + 1)) ^ (w * v) := by
      refine Finset.sum_congr rfl fun v hv => ?_
      rw [show 2 * v * 2 ^ R = v * 2 ^ (R + 1) from by rw [hp1]; ring]
      congr 1
      simp only [← pow_mul]
      rw [show 2 ^ R * ((2 ^ s + w) * (2 * v)) =
          2 ^ (s + R + 1) * v + 2 ^ (R + 1) * (w * v) from by
        rw [hp1, hp3]; ring,
        pow_add, pow_mul, h1, one_pow, one_mul]
    have hOdd : (∑ v ∈ Finset.range (2 ^ s),
        a0.getD ((2 * v + 1) * 2 ^ R + bitRev R (p / 2 ^ (s + 1))) 0 *
          (root ^ 2 ^ R) ^ ((2 ^ s + w) * (2 * v + 1))) =
        ∑ v ∈ Finset.range (2 ^ s),
          -(a0.getD (v * 2 ^ (R + 1) + (2 ^ R + bitRev R (p / 2 ^ (s + 1)))) 0 *
            (root ^ 2 ^ (R + 1)) ^ (w * v) * (root ^ 2 ^ R) ^ w) := by
      refine Finset.sum_congr rfl fun v hv => ?_
      rw [show (2 * v + 1) * 2 ^ R + bitRev R (p / 2 ^ (s + 1)) =
          v * 2 ^ (R + 1) + (2 ^ R + bitRev R (p / 2 ^ (s + 1))) from by
        rw [hp1]; ring]
      simp only [← pow_mul]
      rw [show 2 ^ R * ((2 ^ s + w) * (2 * v + 1)) =
          2 ^ (s + R + 1) * v + (2 ^ (s + R) + (2 ^ (R + 1) * (w * v) +
            2 ^ R * w)) from by rw [hp1, hp3, hp4]; ring,
        root_pow_split root _ _ _ _ v h1 hm]
      ring
    rw [hEven, hOdd, Finset.sum_neg_distrib, ← Finset.sum_mul]
    ring

/-- Running the stage loop from width `2^(s+1)` on a state satisfying the
stage-`s` invariant computes the order-`2^k` DFT. -/
theorem ctStagesGo_dft (k : Nat) (root : F) (a0 : List F)
    (h1 : root ^ 2 ^ k = 1) (hm : 1 ≤ k → root ^ 2 ^ (k - 1) = -1) :
    ∀ R s, s + R = k → ∀ c : List F, c.length = 2 ^ k →
      (∀ q, q < 2 ^ k → c.getD q 0 =
        ∑ v ∈ Finset.range (2 ^ s),
          a0.getD (v * 2 ^ R + bitRev R (q / 2 ^ s)) 0 *
            (root ^ 2 ^ R) ^ (q % 2 ^ s * v)) →
      ∀ p, p < 2 ^ k →
        (ctStagesGo (2 ^ k) root (2 ^ (s + 1)) c).getD p 0 =
          ∑ v ∈ Finset.range (2 ^ k), a0.getD v 0 * root ^ (p * v) := by
  intro R
  induction R with
  | zero =>
    intro s hsk c hc hinv p hp
    have hs : s = k := by omega
    subst hs
    have hlt : (2 : Nat) ^ s < 2 ^ (s + 1) := by
      have := pow_succ 2 s
      have h0 : 0 < (2 : Nat) ^ s := by positivity
      omega
    rw [ctStagesGo, dif_neg (by omega)]
    rw [hinv p hp]
    refine Finset.sum_congr rfl fun v hv => ?_
    simp only [pow_zero, pow_one, mul_one, show bitRev 0 (p / 2 ^ s) = 0 from rfl,
      add_zero, Nat.mod_eq_of_lt hp]
  | succ R ih =>
    intro s hsk c hc hinv p hp
    have hk : k = s + R + 1 := by omega
    subst hk
    have h2s : 0 < (2 : Nat) ^ s := by positivity
    have h2sR : (2 : Nat) ^ (s + 1) ≤ 2 ^ (s + R + 1) :=
      Nat.pow_le_pow_right (by omega) (by omega)
    have h2le : 2 ≤ (2 : Nat) ^ (s + 1) := by
      have := pow_succ 2 s
      omega
    rw [ctStagesGo, dif_pos ⟨h2le, h2sR⟩, ← pow_succ]
    have hm' : root ^ 2 ^ (s + R) = -1 := by
      have h := hm (by omega)
      rwa [show s + R + 1 - 1 = s + R by omega] at h
    have hstep := nttStage_step s R root a0 c hc h1 hm' hinv
    exact ih (s + 1) (by omega) _ (by rw [ctStage_length, hc]) hstep p hp

/-- `ntt_in_place` on a list of length `2^k`, with a root satisfying
`root^(2^k) = 1` and (for `k ≥ 1`) `root^(2^(k-1)) = -1`, computes the
discrete Fourier transform `p ↦ ∑ v, a_v · root^(p·v)`. -/
theorem ntt_in_place_dft (k : Nat) (root : F) (a : List F)
    (ha : a.length = 2 ^ k) (h1 : root ^ 2 ^ k = 1)
    (hm : 1 ≤ k → root ^ 2 ^ (k - 1) = -1) :
    ∀ p, p < 2 ^ k → (ntt_in_place a root).getD p 0 =
      ∑ v ∈ Finset.range (2 ^ k), a.getD v 0 * root ^ (p * v) := by
  intro p hp
  rw [ntt_in_place, ha]
  have hinv0 : ∀ q, q < 2 ^ k → (bit_reversal (2 ^ k) a).getD q 0 =
      ∑ v ∈ Finset.range (2 ^ 0),
        a.getD (v * 2 ^ k + bitRev k (q / 2 ^ 0)) 0 *
          (root ^ 2 ^ k) ^ (q % 2 ^ 0 * v) := by
    intro q hq
    rw [bit_reversal_spec k a ha q hq]
    simp [Finset.sum_range_one, Nat.div_one]
  have hres := ctStagesGo_dft k root a h1 hm k 0 (by omega)
    (bit_reversal (2 ^ k) a) (by rw [bit_reversal, bitrevGo_length, ha]) hinv0 p hp
  rwa [show (2 : Nat) ^ (0 + 1) = 2 from by norm_num] at hres

theorem geom_sum_zero_of_pow_eq_one (x : F) (n : Nat) (hx1 : x ^ n = 1)
    (hx : x ≠ 1) : ∑ i ∈ Finset.range n, x ^ i = 0 := by
  have h := geom_sum_mul x n
  rw [hx1, sub_self] at h
  rcases mul_eq_zero.mp h with h0 | h0
  · exact h0
  · exact absurd (sub_eq_zero.mp h0) hx

/-- Orthogonality of characters: for a root of exact order `n`, the inner sum
of the inverse transform collapses to `n · δ_{J P}`. -/
theorem dft_orth (n : Nat) (root : F) (hn : 0 < n) (h1 : root ^ n = 1)
    (hord : ∀ t, 0 < t → t < n → root ^ t ≠ 1) (P J : Nat) (hP : P < n)
    (hJ : J < n) :
    (∑ v ∈ Finset.range n, root ^ (((n - 1) * P + J) * v)) =
      if J = P then (n : F) else 0 := by
  by_cases hJP : J = P
  · subst hJP
    rw [if_pos rfl]
    have hsum : (∑ v ∈ Finset.range n, root ^ (((n - 1) * J + J) * v)) =
        ∑ v ∈ Finset.range n, (1 : F) := by
      refine Finset.sum_congr rfl fun v hv => ?_
      have he : ((n - 1) * J + J) * v = n * J * v := by
        have h := Nat.sub_mul n 1 J
        have h2 : 1 * J = J := Nat.one_mul J
        have h3 : J ≤ n * J := Nat.le_mul_of_pos_left J hn
        have h4 : (n - 1) * J + J = n * J := by omega
        rw [h4]
      rw [he, Nat.mul_assoc, pow_mul, h1, one_pow]
    rw [hsum]
    simp
  · rw [if_neg hJP]
    have hxn : (root ^ ((n - 1) * P + J)) ^ n = 1 := by
      rw [← pow_mul, mul_comm, pow_mul, h1, one_pow]
    have hxne : root ^ ((n - 1) * P + J) ≠ 1 := by
      have hkey : ∃ q rmd, (n - 1) * P + J = q * n + rmd ∧ 0 < rmd ∧ rmd < n := by
        have hmulP := Nat.sub_mul n 1 P
        have h1P : 1 * P = P := Nat.one_mul P
        have hPle : P ≤ n * P := Nat.le_mul_of_pos_left P hn
        have hc : n * P = P * n := Nat.mul_comm n P
        rcases Nat.lt_or_ge J P with hlt | hge
        · refine ⟨P - 1, n - P + J, ?_, by omega, by omega⟩
          have hq := Nat.sub_mul P 1 n
          have h1n : 1 * n = n := Nat.one_mul n
          have hnle : n ≤ P * n := Nat.le_mul_of_pos_left n (by omega)
          omega
        · refine ⟨P, J - P, ?_, by omega, by omega⟩
          omega
      obtain ⟨q, rmd, hEeq, hr0, hrn⟩ := hkey
      rw [hEeq, pow_add, Nat.mul_comm q n, pow_mul, h1, one_pow, one_mul]
      exact hord rmd hr0 hrn
    have hgeom : (∑ v ∈ Finset.range n, root ^ (((n - 1) * P + J) * v)) =
        ∑ v ∈ Finset.range n, (root ^ ((n - 1) * P + J)) ^ v := by
      refine Finset.sum_congr rfl fun v hv => ?_
      rw [pow_mul]
    rw [hgeom]
    exact geom_sum_zero_of_pow_eq_one _ n hxn hxne

/-- From `root^(2^k) = 1` and the primitivity checks of `validate_domain_r`:
`root` has exact order `2^k`, `root^(2^(k-1)) = -1` for `k ≥ 1`, and the
block length `2^k` is invertible in `F`. -/
theorem root_order_facts (k : Nat) (root : F)
    (h1 : root ^ 2 ^ k = 1)
    (hprim : ∀ p, Nat.Prime p → p ∣ 2 ^ k → root ^ (2 ^ k / p) ≠ 1) :
    (∀ t, 0 < t → t < 2 ^ k → root ^ t ≠ 1) ∧
    (1 ≤ k → root ^ 2 ^ (k - 1) = -1) ∧ (((2 ^ k : Nat) : F) ≠ 0) := by
  have hps : ∀ j, (2 : Nat) ^ (j + 1) = 2 ^ j * 2 := fun j => pow_succ 2 j
  have hord : ∀ t, 0 < t → t < 2 ^ k → root ^ t ≠ 1 := by
    intro t ht0 htn hcon
    have hk1 : 1 ≤ k := by
      rcases Nat.eq_zero_or_pos k with rfl | h
      · norm_num at htn
        omega
      · exact h
    have hd1 : orderOf root ∣ 2 ^ k := orderOf_dvd_of_pow_eq_one h1
    have hd2 : orderOf root ∣ t := orderOf_dvd_of_pow_eq_one hcon
    have hdne : orderOf root ≠ 2 ^ k := by
      intro he
      have hle := Nat.le_of_dvd ht0 hd2
      omega
    obtain ⟨j, hjk, hje⟩ := (Nat.dvd_prime_pow Nat.prime_two).mp hd1
    have hjlt : j < k := by
      rcases Nat.lt_or_ge j k with h | h
      · exact h
      · have hjeq : j = k := by omega
        exact absurd (by rw [hje, hjeq]) hdne
    have hdiv : orderOf root ∣ 2 ^ (k - 1) := by
      rw [hje]
      exact pow_dvd_pow 2 (by omega)
    have hhalf : root ^ 2 ^ (k - 1) = 1 := orderOf_dvd_iff_pow_eq_one.mp hdiv
    have hp2 := hprim 2 Nat.prime_two (dvd_pow_self 2 (by omega))
    rw [show (2 : Nat) ^ k / 2 = 2 ^ (k - 1) from by
      have h := hps (k - 1)
      have h2 : k - 1 + 1 = k := by omega
      rw [h2] at h
      omega] at hp2
    exact hp2 hhalf
  have hneg : 1 ≤ k → root ^ 2 ^ (k - 1) = -1 := by
    intro hk1
    have hsum : 2 ^ (k - 1) + 2 ^ (k - 1) = 2 ^ k := by
      have h := hps (k - 1)
      have h2 : k - 1 + 1 = k := by omega
      rw [h2] at h
      omega
    have hx2 : root ^ 2 ^ (k - 1) * root ^ 2 ^ (k - 1) = 1 := by
      rw [← pow_add, hsum]
      exact h1
    have hxne : root ^ 2 ^ (k - 1) ≠ 1 := by
      refine hord _ (by positivity) ?_
      have h0 : 0 < (2 : Nat) ^ (k - 1) := by positivity
      omega
    have hfact : (root ^ 2 ^ (k - 1) - 1) * (root ^ 2 ^ (k - 1) + 1) = 0 := by
      linear_combination hx2
    rcases mul_eq_zero.mp hfact with h0 | h0
    · exact absurd (sub_eq_zero.mp h0) hxne
    · exact eq_neg_of_add_eq_zero_left h0
  refine ⟨hord, hneg, ?_⟩
  rcases Nat.eq_zero_or_pos k with rfl | hk1
  · norm_num
  · have h2ne : (2 : F) ≠ 0 := by
      intro hcon2
      have hneg1 := hneg (by omega)
      have hne := hord (2 ^ (k - 1)) (by positivity) (by
        have h := hps (k - 1)
        have h2 : k - 1 + 1 = k := by omega
        rw [h2] at h
        have h0 : 0 < (2 : Nat) ^ (k - 1) := by positivity
        omega)
      have hm1 : (-1 : F) = 1 := by linear_combination -hcon2
      rw [hneg1] at hne
      exact hne hm1
    rw [Nat.cast_pow, Nat.cast_ofNat]
    exact pow_ne_zero k h2ne

theorem getD_map_mul (l : List F) (c : F) (p : Nat) (hp : p < l.length) :
    (l.map (fun x => x * c)).getD p 0 = l.getD p 0 * c := by
  rw [List.getD_eq_getElem _ _ (by simpa using hp),
    List.getD_eq_getElem _ _ hp, List.getElem_map]

/-- `intt_in_place ∘ ntt_in_place = id` on length-`2^k` vectors, for a
primitive `2^k`-th root of unity. -/
theorem intt_ntt_roundtrip (k : Nat) (root : F) (a : List F)
    (ha : a.length = 2 ^ k) (h1 : root ^ 2 ^ k = 1)
    (hprim : ∀ p, Nat.Prime p → p ∣ 2 ^ k → root ^ (2 ^ k / p) ≠ 1) :
    intt_in_place (ntt_in_place a root) root = a := by
  obtain ⟨hord, hneg, hn0⟩ := root_order_facts k root h1 hprim
  have hn : 0 < (2 : Nat) ^ k := by positivity
  have hinv_eq : root⁻¹ = root ^ (2 ^ k - 1) := by
    refine inv_eq_of_mul_eq_one_right ?_
    rw [← pow_succ', show 2 ^ k - 1 + 1 = 2 ^ k from by omega]
    exact h1
  have hinv1 : root⁻¹ ^ 2 ^ k = 1 := by rw [inv_pow, h1, inv_one]
  have hinvm : 1 ≤ k → root⁻¹ ^ 2 ^ (k - 1) = -1 := fun hk => by
    rw [inv_pow, hneg hk, inv_neg, inv_one]
  have hb_len : (ntt_in_place a root).length = 2 ^ k := by
    rw [ntt_in_place_length, ha]
  have hmain : ∀ p, p < 2 ^ k →
      (intt_in_place (ntt_in_place a root) root).getD p 0 = a.getD p 0 := by
    intro p hp
    rw [intt_in_place, hb_len,
      getD_map_mul _ _ p (by rw [ntt_in_place_length, hb_len]; exact hp),
      ntt_in_place_dft k root⁻¹ (ntt_in_place a root) hb_len hinv1 hinvm p hp,
      show (∑ v ∈ Finset.range (2 ^ k),
          (ntt_in_place a root).getD v 0 * root⁻¹ ^ (p * v)) =
        ∑ v ∈ Finset.range (2 ^ k), ∑ j ∈ Finset.range (2 ^ k),
          a.getD j 0 * root ^ (v * j) * root ^ ((2 ^ k - 1) * (p * v)) from
        Finset.sum_congr rfl fun v hv => by
          rw [ntt_in_place_dft k root a ha h1 hneg v (Finset.mem_range.mp hv),
            hinv_eq, ← pow_mul, Finset.sum_mul],
      Finset.sum_comm,
      show (∑ j ∈ Finset.range (2 ^ k), ∑ v ∈ Finset.range (2 ^ k),
          a.getD j 0 * root ^ (v * j) * root ^ ((2 ^ k - 1) * (p * v))) =
        ∑ j ∈ Finset.range (2 ^ k),
          (if j = p then a.getD j 0 * ((2 ^ k : Nat) : F) else 0) from
        Finset.sum_congr rfl fun j hj => by
          rw [show (∑ v ∈ Finset.range (2 ^ k),
              a.getD j 0 * root ^ (v * j) * root ^ ((2 ^ k - 1) * (p * v))) =
            ∑ v ∈ Finset.range (2 ^ k),
              a.getD j 0 * root ^ (((2 ^ k - 1) * p + j) * v) from
            Finset.sum_congr rfl fun v hv => by
              rw [mul_assoc, ← pow_add]
              congr 1
              ring,
            ← Finset.mul_sum,
            dft_orth (2 ^ k) root hn h1 hord p j hp (Finset.mem_range.mp hj)]
          by_cases hjp : j = p
          · rw [if_pos hjp, if_pos hjp]
          · rw [if_neg hjp, if_neg hjp, mul_zero],
      Finset.sum_ite_eq' (Finset.range (2 ^ k)) p
        (fun j => a.getD j 0 * ((2 ^ k : Nat) : F)),
      if_pos (Finset.mem_range.mpr hp), mul_assoc, mul_inv_cancel₀ hn0, mul_one]
  refine List.ext_getElem (by rw [intt_in_place_length, hb_len, ha]) ?_
  intro i hi1 hi2
  have hik : i < 2 ^ k := by
    rw [intt_in_place_length, hb_len] at hi1
    exact hi1
  rw [← List.getD_eq_getElem (intt_in_place (ntt_in_place a root) root) 0 hi1,
    ← List.getD_eq_getElem a 0 hi2]
  exact hmain i hik

/-- `ntt_in_place ∘ intt_in_place = id` on length-`2^k` vectors, for a
primitive `2^k`-th root of unity. -/
theorem ntt_intt_roundtrip (k : Nat) (root : F) (a : List F)
    (ha : a.length = 2 ^ k) (h1 : root ^ 2 ^ k = 1)
    (hprim : ∀ p, Nat.Prime p → p ∣ 2 ^ k → root ^ (2 ^ k / p) ≠ 1) :
    ntt_in_place (intt_in_place a root) root = a := by
  obtain ⟨hord, hneg, hn0⟩ := root_order_facts k root h1 hprim
  have hn : 0 < (2 : Nat) ^ k := by positivity
  have hinv_eq : root⁻¹ = root ^ (2 ^ k - 1) := by
    refine inv_eq_of_mul_eq_one_right ?_
    rw [← pow_succ', show 2 ^ k - 1 + 1 = 2 ^ k from by omega]
    exact h1
  have hinv1 : root⁻¹ ^ 2 ^ k = 1 := by rw [inv_pow, h1, inv_one]
  have hinvm : 1 ≤ k → root⁻¹ ^ 2 ^ (k - 1) = -1 := fun hk => by
    rw [inv_pow, hneg hk, inv_neg, inv_one]
  have hc_len : (intt_in_place a root).length = 2 ^ k := by
    rw [intt_in_place_length, ha]
  have hcval : ∀ v, v < 2 ^ k → (intt_in_place a root).getD v 0 =
      (∑ j ∈ Finset.range (2 ^ k),
        a.getD j 0 * root ^ ((2 ^ k - 1) * (v * j))) * ((2 ^ k : Nat) : F)⁻¹ := by
    intro v hv
    rw [intt_in_place, ha,
      getD_map_mul _ _ v (by rw [ntt_in_place_length, ha]; exact hv),
      ntt_in_place_dft k root⁻¹ a ha hinv1 hinvm v hv]
    congr 1
    refine Finset.sum_congr rfl fun j hj => ?_
    rw [hinv_eq, ← pow_mul]
  have hmain : ∀ p, p < 2 ^ k →
      (ntt_in_place (intt_in_place a root) root).getD p 0 = a.getD p 0 := by
    intro p hp
    rw [ntt_in_place_dft k root (intt_in_place a root) hc_len h1 hneg p hp,
      show (∑ v ∈ Finset.range (2 ^ k),
          (intt_in_place a root).getD v 0 * root ^ (p * v)) =
        ∑ v ∈ Finset.range (2 ^ k), ∑ j ∈ Finset.range (2 ^ k),
          a.getD j 0 * root ^ ((2 ^ k - 1) * (v * j)) * ((2 ^ k : Nat) : F)⁻¹ *
            root ^ (p * v) from
        Finset.sum_congr rfl fun v hv => by
          rw [hcval v (Finset.mem_range.mp hv), Finset.sum_mul, Finset.sum_mul],
      Finset.sum_comm,
      show (∑ j ∈ Finset.range (2 ^ k), ∑ v ∈ Finset.range (2 ^ k),
          a.getD j 0 * root ^ ((2 ^ k - 1) * (v * j)) * ((2 ^ k : Nat) : F)⁻¹ *
            root ^ (p * v)) =
        ∑ j ∈ Finset.range (2 ^ k),
          (if p = j then a.getD j 0 * ((2 ^ k : Nat) : F)⁻¹ *
            ((2 ^ k : Nat) : F) else 0) from
        Finset.sum_congr rfl fun j hj => by
          rw [show (∑ v ∈ Finset.range (2 ^ k),
              a.getD j 0 * root ^ ((2 ^ k - 1) * (v * j)) * ((2 ^ k : Nat) : F)⁻¹ *
                root ^ (p * v)) =
            ∑ v ∈ Finset.range (2 ^ k),
              a.getD j 0 * ((2 ^ k : Nat) : F)⁻¹ *
                root ^ (((2 ^ k - 1) * j + p) * v) from
            Finset.sum_congr rfl fun v hv => by
              have he : (2 ^ k - 1) * (v * j) + p * v =
                  ((2 ^ k - 1) * j + p) * v := by ring
              calc a.getD j 0 * root ^ ((2 ^ k - 1) * (v * j)) *
                    ((2 ^ k : Nat) : F)⁻¹ * root ^ (p * v)
                  = a.getD j 0 * ((2 ^ k : Nat) : F)⁻¹ *
                    (root ^ ((2 ^ k - 1) * (v * j)) * root ^ (p * v)) := by ring
                _ = a.getD j 0 * ((2 ^ k : Nat) : F)⁻¹ *
                    root ^ ((2 ^ k - 1) * (v * j) + p * v) := by rw [pow_add]
                _ = a.getD j 0 * ((2 ^ k : Nat) : F)⁻¹ *
                    root ^ (((2 ^ k - 1) * j + p) * v) := by rw [he],
            ← Finset.mul_sum,
            dft_orth (2 ^ k) root hn h1 hord j p (Finset.mem_range.mp hj) hp]
          by_cases hjp : p = j
          · rw [if_pos hjp, if_pos hjp, mul_assoc]
          · rw [if_neg hjp, if_neg hjp, mul_zero],
      Finset.sum_ite_eq (Finset.range (2 ^ k)) p
        (fun j => a.getD j 0 * ((2 ^ k : Nat) : F)⁻¹ * ((2 ^ k : Nat) : F)),
      if_pos (Finset.mem_range.mpr hp), mul_assoc,
      inv_mul_cancel₀ hn0, mul_one]
  refine List.ext_getElem (by rw [ntt_in_place_length, hc_len, ha]) ?_
  intro i hi1 hi2
  have hik : i < 2 ^ k := by
    rw [ntt_in_place_length, hc_len] at hi1
    exact hi1
  rw [← List.getD_eq_getElem (ntt_in_place (intt_in_place a root) root) 0 hi1,
    ← List.getD_eq_getElem a 0 hi2]
  exact hmain i hik

theorem validate_domain_r_ok (n : Nat) (omega zh_c : F) (hn : 0 < n)
    (hc : zh_c ≠ 0) (hw : omega ^ n = 1)
    (hprim : ∀ p, Nat.Prime p → p ∣ n → omega ^ (n / p) ≠ 1) :
    validate_domain_r (⟨n, omega, zh_c⟩ : DomainS F) = Except.ok () := by
  have hval : validate_domain_r (⟨n, omega, zh_c⟩ : DomainS F) =
      checkPrimitive omega n (prime_factors n) := by
    rw [validate_domain_r]
    simp only [if_neg (show ¬ n = 0 by omega), if_neg hc]
    rw [if_neg (by simpa [pow_u64_eq] using hw)]
  rw [hval, checkPrimitive_ok_iff]
  intro p hp
  obtain ⟨hpp, hpd⟩ := (prime_factors_mem n hn p).mp hp
  exact hprim p hpp hpd

theorem new_with_c_r_ok (n : Nat) (omega zh_c : F) (hn : 0 < n)
    (hc : zh_c ≠ 0) (hw : omega ^ n = 1)
    (hprim : ∀ p, Nat.Prime p → p ∣ n → omega ^ (n / p) ≠ 1) :
    new_with_c_r n omega zh_c = Except.ok ⟨n, omega, zh_c⟩ := by
  rw [new_with_c_r]
  rw [validate_domain_r_ok n omega zh_c hn hc hw hprim]

theorem is_power_of_two_unfold (m : Nat) :
    is_power_of_two (m + 2) =
      (decide ((m + 2) % 2 = 0) && is_power_of_two ((m + 2) / 2)) := by
  rw [is_power_of_two]

theorem is_power_of_two_two_pow (k : Nat) : is_power_of_two (2 ^ k) = true := by
  induction k with
  | zero =>
    rw [pow_zero]
    simp [is_power_of_two]
  | succ k ih =>
    have h2 : (2 : Nat) ^ (k + 1) = 2 ^ k * 2 := pow_succ 2 k
    have h1le : 1 ≤ (2 : Nat) ^ k := Nat.one_le_two_pow
    obtain ⟨m, hm⟩ : ∃ m, 2 ^ (k + 1) = m + 2 := ⟨2 ^ (k + 1) - 2, by omega⟩
    rw [hm, is_power_of_two_unfold, ← hm,
      show (2 : Nat) ^ (k + 1) % 2 = 0 from by omega,
      show (2 : Nat) ^ (k + 1) / 2 = 2 ^ k from by omega, ih]
    rfl

theorem primitive_len_root_self (n : Nat) (omega zh_c : F) (k : Nat)
    (hpow : n = 2 ^ k)
    (hval : validate_domain_r (⟨n, omega, zh_c⟩ : DomainS F) = Except.ok ()) :
    primitive_len_root_r (⟨n, omega, zh_c⟩ : DomainS F) n = Except.ok omega := by
  have hn : 0 < n := by rw [hpow]; positivity
  rw [primitive_len_root_r, validate_len_r, hval]
  dsimp only
  rw [if_neg (not_not_intro
      ⟨hn, by rw [hpow]; exact is_power_of_two_two_pow k, Nat.mod_self n⟩),
    Nat.div_self hn, pow_u64_eq, pow_one]

theorem ntt_block_ok_of_len (n : Nat) (omega zh_c : F) (k : Nat)
    (hpow : n = 2 ^ k)
    (hval : validate_domain_r (⟨n, omega, zh_c⟩ : DomainS F) = Except.ok ())
    (b : List F) (hb : b.length = n) :
    ntt_block_coeffs_to_evals_r (⟨n, omega, zh_c⟩ : DomainS F) b =
      Except.ok (ntt_in_place b omega) := by
  rw [ntt_block_coeffs_to_evals_r, hb,
    primitive_len_root_self n omega zh_c k hpow hval]

theorem ifft_block_ok_of_len (n : Nat) (omega zh_c : F) (k : Nat)
    (hpow : n = 2 ^ k)
    (hval : validate_domain_r (⟨n, omega, zh_c⟩ : DomainS F) = Except.ok ())
    (b : List F) (hb : b.length = n) :
    ifft_block_evals_to_coeffs_r (⟨n, omega, zh_c⟩ : DomainS F) b =
      Except.ok (intt_in_place b omega) := by
  rw [ifft_block_evals_to_coeffs_r, hb,
    primitive_len_root_self n omega zh_c k hpow hval]

end NttCorrectness

/-- C8 (amended): for every domain `(N, omega, c)` passing validation whose
size `N` is a power of two, and every vector `a` of length `N`, the forward
transform `ntt_block_coeffs_to_evals_r` succeeds and the inverse transform
returns `a` again, and symmetrically starting from the inverse transform
(`INTT ∘ NTT = id` and `NTT ∘ INTT = id` on length-`N` vectors).  As stated
for all valid domains the claim fails: the per-block length validation also
requires the length to be a power of two, so for a valid domain with `N` not
a power of two both transforms reject length-`N` vectors. -/
theorem c8_ntt_intt_roundtrip {F : Type} [Field F] [DecidableEq F]
    (k n : Nat) (omega zh_c : F) (a : List F)
    (hpow : n = 2 ^ k) (hc : zh_c ≠ 0) (hw : omega ^ n = 1)
    (hprim : ∀ p, Nat.Prime p → p ∣ n → omega ^ (n / p) ≠ 1)
    (ha : a.length = n) :
    (∃ dom, new_with_c_r n omega zh_c = Except.ok dom) ∧
    (∃ evals, ntt_block_coeffs_to_evals_r (⟨n, omega, zh_c⟩ : DomainS F) a =
        Except.ok evals ∧
      ifft_block_evals_to_coeffs_r (⟨n, omega, zh_c⟩ : DomainS F) evals =
        Except.ok a) ∧
    (∃ coeffs, ifft_block_evals_to_coeffs_r (⟨n, omega, zh_c⟩ : DomainS F) a =
        Except.ok coeffs ∧
      ntt_block_coeffs_to_evals_r (⟨n, omega, zh_c⟩ : DomainS F) coeffs =
        Except.ok a) := by
  subst hpow
  have hn : 0 < (2 : Nat) ^ k := by positivity
  have hval := validate_domain_r_ok (2 ^ k) omega zh_c hn hc hw hprim
  have hb_len : (ntt_in_place a omega).length = 2 ^ k := by
    rw [ntt_in_place_length, ha]
  have hc_len : (intt_in_place a omega).length = 2 ^ k := by
    rw [intt_in_place_length, ha]
  refine ⟨⟨⟨2 ^ k, omega, zh_c⟩, new_with_c_r_ok (2 ^ k) omega zh_c hn hc hw hprim⟩,
    ⟨ntt_in_place a omega,
      ntt_block_ok_of_len (2 ^ k) omega zh_c k rfl hval a ha, ?_⟩,
    ⟨intt_in_place a omega,
      ifft_block_ok_of_len (2 ^ k) omega zh_c k rfl hval a ha, ?_⟩⟩
  · rw [ifft_block_ok_of_len (2 ^ k) omega zh_c k rfl hval _ hb_len,
      intt_ntt_roundtrip k omega a ha hw hprim]
  · rw [ntt_block_ok_of_len (2 ^ k) omega zh_c k rfl hval _ hc_len,
      ntt_intt_roundtrip k omega a ha hw hprim]

/-- Witness for C8 at a concrete input: domain `N = 4`, `omega = 10`, `c = 1`
over `ZMod 101` and the vector `[1, 2, 3, 4]`. -/
theorem c8_ntt_intt_roundtrip_witness :
    ((4 : Nat) = 2 ^ 2 ∧ (1 : ZMod 101) ≠ 0 ∧ (10 : ZMod 101) ^ 4 = 1 ∧
      (∀ p, Nat.Prime p → p ∣ 4 → (10 : ZMod 101) ^ (4 / p) ≠ 1) ∧
      ([1, 2, 3, 4] : List (ZMod 101)).length = 4) ∧
    ((∃ dom, new_with_c_r 4 (10 : ZMod 101) 1 = Except.ok dom) ∧
     (∃ evals, ntt_block_coeffs_to_evals_r
          (⟨4, 10, 1⟩ : DomainS (ZMod 101)) [1, 2, 3, 4] = Except.ok evals ∧
        ifft_block_evals_to_coeffs_r (⟨4, 10, 1⟩ : DomainS (ZMod 101)) evals =
          Except.ok [1, 2, 3, 4]) ∧
     (∃ coeffs, ifft_block_evals_to_coeffs_r
          (⟨4, 10, 1⟩ : DomainS (ZMod 101)) [1, 2, 3, 4] = Except.ok coeffs ∧
        ntt_block_coeffs_to_evals_r (⟨4, 10, 1⟩ : DomainS (ZMod 101)) coeffs =
          Except.ok [1, 2, 3, 4])) := by
  have hprim : ∀ p, Nat.Prime p → p ∣ 4 → (10 : ZMod 101) ^ (4 / p) ≠ 1 := by
    intro p hp hpd
    have hp2 : p = 2 := by
      have hdvd2 : p ∣ 2 ^ 2 := by simpa using hpd
      have h := Nat.Prime.dvd_of_dvd_pow hp hdvd2
      exact (Nat.prime_dvd_prime_iff_eq hp Nat.prime_two).mp h
    rw [hp2]
    decide
  exact ⟨⟨by norm_num, by decide, by decide, hprim, rfl⟩,
    c8_ntt_intt_roundtrip 2 4 (10 : ZMod 101) 1 [1, 2, 3, 4] (by norm_num)
      (by decide) (by decide) hprim rfl⟩

/-- C8 counterexample to the unamended claim: the domain `N = 3`, `omega = 2`,
`c = 1` over `ZMod 7` passes full domain validation (`2` has multiplicative
order `3` modulo `7`), yet both block transforms reject every length-`3`
vector with `BadLen`, because block length validation additionally requires a
power-of-two length; hence neither `INTT ∘ NTT = id` nor `NTT ∘ INTT = id`
holds on length-`N` vectors for this valid domain. -/
theorem c8_ntt_roundtrip_counterexample :
    new_with_c_r 3 (2 : ZMod 7) 1 = Except.ok ⟨3, 2, 1⟩ ∧
    (([1, 2, 3] : List (ZMod 7)).length = 3) ∧
    ntt_block_coeffs_to_evals_r (⟨3, 2, 1⟩ : DomainS (ZMod 7)) [1, 2, 3] =
      Except.error (DomainError.BadLen 3 3) ∧
    ifft_block_evals_to_coeffs_r (⟨3, 2, 1⟩ : DomainS (ZMod 7)) [1, 2, 3] =
      Except.error (DomainError.BadLen 3 3) := by
  have hprim3 : ∀ p, Nat.Prime p → p ∣ 3 → (2 : ZMod 7) ^ (3 / p) ≠ 1 := by
    intro p hp hpd
    have hp3 : p = 3 := (Nat.prime_dvd_prime_iff_eq hp Nat.prime_three).mp hpd
    rw [hp3]
    decide
  have hv3 : validate_domain_r (⟨3, 2, 1⟩ : DomainS (ZMod 7)) = Except.ok () :=
    validate_domain_r_ok 3 2 1 (by norm_num) (by decide) (by decide) hprim3
  have hp3f : is_power_of_two 3 = false := by
    rw [show (3 : Nat) = 1 + 2 from rfl, is_power_of_two_unfold]
    rfl
  have hlen3 : validate_len_r (⟨3, 2, 1⟩ : DomainS (ZMod 7)) 3 =
      Except.error (DomainError.BadLen 3 3) := by
    rw [validate_len_r, hv3]
    dsimp only
    rw [if_pos (by simp [hp3f])]
  have hprl3 : primitive_len_root_r (⟨3, 2, 1⟩ : DomainS (ZMod 7)) 3 =
      Except.error (DomainError.BadLen 3 3) := by
    rw [primitive_len_root_r, hlen3]
  refine ⟨new_with_c_r_ok 3 2 1 (by norm_num) (by decide) (by decide) hprim3,
    rfl, ?_, ?_⟩
  · rw [ntt_block_coeffs_to_evals_r,
      show ([1, 2, 3] : List (ZMod 7)).length = 3 from rfl, hprl3]
  · rw [ifft_block_evals_to_coeffs_r,
      show ([1, 2, 3] : List (ZMod 7)).length = 3 from rfl, hprl3]

-- ===========================================================================
-- C3: the two streamed quotient builders return the same commitment
-- (quotient.rs::build_and_commit_quotient_streamed_r vs
--  build_and_commit_quotient_streamed_tile_native_r)
-- ===========================================================================

section QuotientBuilders

variable {F : Type} [Field F] [DecidableEq F]
variable {G : Type} [AddCommGroup G] [Module F G]

/-- Chunking of a stream into blocks of `b` elements (the
`buf.push(r); if buf.len() == b_blk { feed }` loop plus the final partial
feed).  Unreachable `b = 0` yields no chunks. -/
def chunkList (b : Nat) (l : List F) : List (List F) :=
  if h : l = [] ∨ b = 0 then [] else l.take b :: chunkList b (l.drop b)
termination_by l.length
decreasing_by
  rcases eq_or_ne b 0 with hb | hb
  · exact absurd (Or.inr hb) h
  · have hl : l ≠ [] := fun hcon => h (Or.inl hcon)
    have hpos : 0 < l.length := List.length_pos.mpr hl
    simp only [List.length_drop]
    omega

theorem chunkList_flatten (b : Nat) (hb : 1 ≤ b) :
    ∀ l : List F, (chunkList b l).flatten = l := by
  suffices h : ∀ (m : Nat) (l : List F), l.length ≤ m → (chunkList b l).flatten = l by
    exact fun l => h l.length l le_rfl
  intro m
  induction m with
  | zero =>
    intro l hl
    have hnil : l = [] := by
      cases l with
      | nil => rfl
      | cons x t => simp at hl
    subst hnil
    rw [chunkList, dif_pos (Or.inl rfl)]
    rfl
  | succ m ih =>
    intro l hl
    by_cases h : l = []
    · subst h
      rw [chunkList, dif_pos (Or.inl rfl)]
      rfl
    · rw [chunkList, dif_neg (by
        rintro (hc | hc)
        · exact h hc
        · omega)]
      rw [List.flatten_cons,
        ih (l.drop b) (by
          have hpos : 0 < l.length := List.length_pos.mpr h
          simp only [List.length_drop]
          omega)]
      exact List.take_append_drop b l

/-- Embedding of the legacy in-memory `BlockedIfft` finisher
(`materialize_coefficients` with `checked = false`): pad or truncate the fed
evaluations to exactly `N`, then the panicking `ifft_block_evals_to_coeffs`
(`none` models the panic on a validation/`BadLen` error). -/
def materialize_coefficients (d : DomainS F) (evals : List F) : Option (List F) :=
  (ifft_block_evals_to_coeffs_r d
    (if evals.length > d.n then evals.take d.n
     else evals ++ List.replicate (d.n - evals.length) 0)).toOption

/-- The `if r.len() < n { resize } else if r.len() > n { truncate }` fixup
both builders apply to the collected `R` coefficients. -/
def resizeToN (n : Nat) (r0 : List F) : List F :=
  if r0.length < n then r0 ++ List.replicate (n - r0.length) 0
  else if r0.length > n then r0.take n
  else r0

/-- Embedding of the panicking `Aggregator::add_block_coeffs` (basis assert,
then the checked MSM ingestion; `none` models either panic). -/
def add_block_coeffs (pcs : PcsParams) (srs : Nat → G) (s : AggState G)
    (coeffs : List F) : Option (AggState G) :=
  if pcs.basis = Basis.Coefficient then
    (add_block_coeffs_checked pcs srs s coeffs).toOption
  else none

/-- The `for chunk in q.chunks(TILE) { agg.add_block_coeffs(chunk) }` loop of
the streamed builder, returning the final aggregator state. -/
def commitChunksGo (pcs : PcsParams) (srs : Nat → G) :
    AggState G → List (List F) → Option (AggState G)
  | s, [] => some s
  | s, t :: ts =>
      match add_block_coeffs pcs srs s t with
      | none => none
      | some s2 => commitChunksGo pcs srs s2 ts

/-- Embedding of `Aggregator::add_coeff_tile` with `CoeffTileOrder::HighToLow`
followed by the source's `.expect` (reverse into a temporary, then the
result-returning `add_block_coeffs_r`: basis check plus checked ingestion). -/
def add_coeff_tile_hi_to_lo (pcs : PcsParams) (srs : Nat → G) (s : AggState G)
    (tile : List F) : Option (AggState G) :=
  if pcs.basis = Basis.Coefficient then
    (add_block_coeffs_checked pcs srs s tile.reverse).toOption
  else none

/-- Embedding of `quotient.rs::build_and_commit_quotient_streamed_r` (default
build: legacy in-memory `BlockedIfft`; `none` models a panic).  The unused
`alpha`, `beta`, `gamma` parameters of the source are omitted. -/
def build_and_commit_quotient_streamed_r (d : DomainS F) (pcs : PcsParams)
    (srs : Nat → G) (b_blk : Nat) (stream_r_rows : List F) : Option G :=
  if b_blk = 0 then none
  else
    match materialize_coefficients d ((chunkList b_blk stream_r_rows).flatten) with
    | none => none
    | some coeffs =>
      (commitChunksGo pcs srs ⟨0, 0⟩
        (chunkList 4096
          (long_divide_xn_minus_c_lo_to_hi
            (resizeToN d.n ((chunkList b_blk coeffs).flatten)) d.n d.zh_c))).map
        (fun s => s.acc)

/-- High-to-low emission loop of the tile-native builder: walk `i` from the
top, push each nonzero `q_{i-N} = r[i]` into the current tile, apply the
fold-down `r[i-N] += c * r[i]`, flush full tiles to the aggregator, and
return the pending tile with the aggregator state at exit. -/
def tileNativeGo (pcs : PcsParams) (srs : Nat → G) (n : Nat) (c : F) (b_blk : Nat) :
    Nat → List F → List F → AggState G → Option (List F × AggState G)
  | i, r, tile, s =>
    if i + 1 ≤ n then some (tile, s)
    else
      let coeff := r.getD i 0
      let tile2 := if coeff = 0 then tile else tile ++ [coeff]
      let r2 := if coeff = 0 then r else r.set (i - n) (r.getD (i - n) 0 + c * coeff)
      if tile2.length = b_blk then
        match add_coeff_tile_hi_to_lo pcs srs s tile2 with
        | none => none
        | some s2 =>
            if h : i = 0 then some ([], s2)
            else tileNativeGo pcs srs n c b_blk (i - 1) r2 [] s2
      else
        if h : i = 0 then some (tile2, s)
        else tileNativeGo pcs srs n c b_blk (i - 1) r2 tile2 s
termination_by i _ _ _ => i
decreasing_by all_goals omega

/-- Embedding of
`quotient.rs::build_and_commit_quotient_streamed_tile_native_r` (default
build; `none` models a panic). -/
def build_and_commit_quotient_streamed_tile_native_r (d : DomainS F)
    (pcs : PcsParams) (srs : Nat → G) (b_blk : Nat) (stream_r_rows : List F) :
    Option G :=
  if b_blk = 0 then none
  else
    match materialize_coefficients d ((chunkList b_blk stream_r_rows).flatten) with
    | none => none
    | some coeffs =>
      match tileNativeGo pcs srs d.n d.zh_c b_blk
          ((if (resizeToN d.n ((chunkList b_blk coeffs).flatten)).length > d.n then
              (resizeToN d.n ((chunkList b_blk coeffs).flatten)).take d.n
            else resizeToN d.n ((chunkList b_blk coeffs).flatten)).length - 1)
          (if (resizeToN d.n ((chunkList b_blk coeffs).flatten)).length > d.n then
              (resizeToN d.n ((chunkList b_blk coeffs).flatten)).take d.n
            else resizeToN d.n ((chunkList b_blk coeffs).flatten))
          [] ⟨0, 0⟩ with
      | none => none
      | some p =>
          if p.1 = [] then some p.2.acc
          else (add_coeff_tile_hi_to_lo pcs srs p.2 p.1).map (fun s2 => s2.acc)

theorem primitive_len_root_ok (d : DomainS F) (len : Nat) (root : F)
    (h : primitive_len_root_r d len = Except.ok root) :
    0 < len ∧ is_power_of_two len = true ∧ d.n % len = 0 ∧
      validate_domain_r d = Except.ok () := by
  rw [primitive_len_root_r] at h
  cases hv : validate_len_r d len with
  | error e => rw [hv] at h; exact absurd h (by simp)
  | ok u =>
    rw [validate_len_r] at hv
    cases hvd : validate_domain_r d with
    | error e => rw [hvd] at hv; exact absurd hv (by simp)
    | ok u2 =>
      rw [hvd] at hv
      by_cases hc : 0 < len ∧ is_power_of_two len = true ∧ d.n % len = 0
      · exact ⟨hc.1, hc.2.1, hc.2.2, by cases u2; rfl⟩
      · rw [if_pos hc] at hv
        exact absurd hv (by simp)

theorem materialize_length (d : DomainS F) (evals coeffs : List F)
    (h : materialize_coefficients d evals = some coeffs) :
    coeffs.length = d.n ∧ 0 < d.n := by
  rw [materialize_coefficients] at h
  have hev2 : (if evals.length > d.n then evals.take d.n
      else evals ++ List.replicate (d.n - evals.length) 0).length = d.n := by
    split
    · simp
      omega
    · simp
      omega
  rw [ifft_block_evals_to_coeffs_r] at h
  cases hr : primitive_len_root_r d (if evals.length > d.n then evals.take d.n
      else evals ++ List.replicate (d.n - evals.length) 0).length with
  | error e =>
    rw [hr] at h
    simp [Except.toOption] at h
  | ok root =>
    rw [hr] at h
    obtain ⟨hpos, -, -, -⟩ := primitive_len_root_ok d _ root hr
    simp only [Except.toOption, Option.some.injEq] at h
    rw [← h, intt_in_place_length, hev2]
    rw [hev2] at hpos
    exact ⟨rfl, hpos⟩

theorem resizeToN_of_length_eq (n : Nat) (r0 : List F) (h : r0.length = n) :
    resizeToN n r0 = r0 := by
  rw [resizeToN, if_neg (by omega), if_neg (by omega)]

theorem long_divide_length_n (r : List F) (n : Nat) (c : F)
    (hlen : r.length = n) (hn : 0 < n) :
    long_divide_xn_minus_c_lo_to_hi r n c = [] := by
  rw [long_divide_xn_minus_c_lo_to_hi,
    if_neg (by intro hcon; rw [hcon] at hlen; simp at hlen; omega)]
  rw [ldGo, if_pos (by omega)]
  rfl

end QuotientBuilders

/-- C3: for every residual evaluation stream, domain, PCS parameters, SRS and
block size, the streamed quotient builder (committing `Q` from low-to-high
coefficient tiles) and the tile-native builder (emitting `Q` high-to-low
directly into the aggregator) return the same commitment `C_Q`.  (On every
input both builders truncate `R`'s coefficients to exactly `N` before the
fold-down by `X^N - c`, so the emitted quotient is empty and both return the
commitment of the zero polynomial; where one panics, so does the other.) -/
theorem c3_quotient_builders_agree {F : Type} [Field F] [DecidableEq F]
    {G : Type} [AddCommGroup G] [Module F G]
    (d : DomainS F) (pcs : PcsParams) (srs : Nat → G) (b_blk : Nat)
    (stream : List F) :
    build_and_commit_quotient_streamed_r d pcs srs b_blk stream =
      build_and_commit_quotient_streamed_tile_native_r d pcs srs b_blk stream := by
  rw [build_and_commit_quotient_streamed_r,
    build_and_commit_quotient_streamed_tile_native_r]
  by_cases hb : b_blk = 0
  · rw [if_pos hb, if_pos hb]
  · rw [if_neg hb, if_neg hb]
    cases hm : materialize_coefficients d ((chunkList b_blk stream).flatten) with
    | none => rfl
    | some coeffs =>
      obtain ⟨hclen, hn⟩ := materialize_length d _ _ hm
      dsimp only
      have hr0 : (chunkList b_blk coeffs).flatten = coeffs :=
        chunkList_flatten b_blk (by omega) coeffs
      rw [hr0, resizeToN_of_length_eq d.n coeffs hclen,
        long_divide_length_n coeffs d.n d.zh_c hclen hn]
      rw [show chunkList (4096 : Nat) ([] : List F) = [] from by
        rw [chunkList, dif_pos (Or.inl rfl)]]
      rw [if_neg (by omega : ¬ coeffs.length > d.n)]
      rw [tileNativeGo, if_pos (by omega)]
      rfl

/-- C7: for every finite coefficient vector (given as any flattening of a tile
stream) and every evaluation point `z`, `horner_eval_stream` over the tiles
returns exactly the direct evaluation `∑ i, a_i * z^i`, independent of the
tiling. -/
theorem c7_horner_eval_stream_eq_direct {F : Type} [Field F] [DecidableEq F]
    (tiles : List (List F)) (z : F) :
    horner_eval_stream tiles z =
      ∑ i ∈ Finset.range tiles.flatten.length, tiles.flatten.getD i 0 * z ^ i := by
  rw [horner_eval_stream, horner_fold_acc, ← evalPoly_eq_sum]
  ring

end Tinyzkp
